import Mathlib

/-!
Verification of the TradePy backtesting core: a shallow embedding of
`tradepy/backtesting/account.py`, `tradepy/backtesting/strategy.py`,
`tradepy/backtesting/backtester.py` and `tradepy/core/position.py` in Lean,
together with theorems settling the specification claims about the ledger,
the exit rules, the price-adjustment merge scan, the sizing algorithm and the
day-by-day trading simulation.

Prices, share counts and cash amounts are modelled as rationals; Python's
`round(x, 2)` is idealised as rounding `100 * x` to the nearest integer
(half up) and dividing back.  Division by zero in ℚ yields 0; the source
only divides by quantities that are nonzero on the paths the theorems speak
about, and the relevant hypotheses make those quantities nonzero.
-/

namespace TradePy

/-- `round(x, 2)`: round to two decimal places (nearest, half up). -/
def round2 (x : ℚ) : ℚ := (⌊100 * x + 1/2⌋ : ℤ) / 100

/-- A rational that is an exact multiple of `0.01` (two-decimal value). -/
def Is2Dec (x : ℚ) : Prop := ∃ n : ℤ, 100 * x = (n : ℚ)

theorem is2Dec_round2 (x : ℚ) : Is2Dec (round2 x) := by
  refine ⟨⌊100 * x + 1/2⌋, ?_⟩
  unfold round2
  ring

theorem is2Dec_zero : Is2Dec 0 := ⟨0, by norm_num⟩

theorem is2Dec_add {x y : ℚ} (hx : Is2Dec x) (hy : Is2Dec y) : Is2Dec (x + y) := by
  obtain ⟨n, hn⟩ := hx
  obtain ⟨m, hm⟩ := hy
  exact ⟨n + m, by push_cast; rw [mul_add, hn, hm]⟩

theorem is2Dec_sum (l : List ℚ) (h : ∀ x ∈ l, Is2Dec x) : Is2Dec l.sum := by
  induction l with
  | nil => simpa using is2Dec_zero
  | cons a t ih =>
      rw [List.sum_cons]
      exact is2Dec_add (h a (by simp)) (ih fun x hx => h x (by simp [hx]))

theorem round2_add_left {x : ℚ} (hx : Is2Dec x) (y : ℚ) :
    round2 (x + y) = x + round2 y := by
  obtain ⟨n, hn⟩ := hx
  unfold round2
  have h1 : 100 * (x + y) + 1/2 = (n : ℚ) + (100 * y + 1/2) := by
    rw [mul_add, hn]; ring
  rw [h1, Int.floor_int_add]
  have hx' : x = (n : ℚ) / 100 := by
    field_simp at hn ⊢
    linarith
  rw [hx']
  push_cast
  ring

theorem round2_eq_self {x : ℚ} (hx : Is2Dec x) : round2 x = x := by
  obtain ⟨n, hn⟩ := hx
  unfold round2
  have h1 : 100 * x + 1/2 = (n : ℚ) + 1/2 := by rw [hn]
  rw [h1, Int.floor_int_add]
  have h2 : ⌊(1/2 : ℚ)⌋ = 0 := by norm_num
  rw [h2]
  have hx' : x = (n : ℚ) / 100 := by
    field_simp at hn ⊢
    linarith
  rw [hx']
  push_cast
  ring

theorem round2_zero : round2 0 = 0 := round2_eq_self is2Dec_zero

theorem round2_round2 (x : ℚ) : round2 (round2 x) = round2 x :=
  round2_eq_self (is2Dec_round2 x)

/-- `100 * x` is not exactly halfway between two integers: the two-decimal
rounding of `x` is unambiguous. -/
def NotHalfTie (x : ℚ) : Prop := (100 * x - 1/2 : ℚ).den ≠ 1

theorem notHalfTie_of_ne_int {x : ℚ} (h : ∀ n : ℤ, 100 * x - 1/2 ≠ (n : ℚ)) :
    NotHalfTie x := by
  intro hden
  exact h (100 * x - 1/2).num ((Rat.den_eq_one_iff _).mp hden).symm

theorem notHalfTie_zero : NotHalfTie (0:ℚ) := by
  apply notHalfTie_of_ne_int
  intro n hn
  have h2 : (2 * n : ℚ) = -1 := by linarith
  have h3 : (2 * n : ℤ) = -1 := by exact_mod_cast h2
  omega

theorem round2_neg {x : ℚ} (h : NotHalfTie x) : round2 (-x) = -round2 x := by
  have hne : ∀ n : ℤ, 100 * x - 1/2 ≠ (n : ℚ) := by
    intro n hn
    exact h (by rw [hn, Rat.den_intCast])
  have h1 : ((⌊100 * x + 1/2⌋ : ℤ) : ℚ) ≤ 100 * x + 1/2 := Int.floor_le _
  have h2 : 100 * x + 1/2 < ((⌊100 * x + 1/2⌋ : ℤ) : ℚ) + 1 := Int.lt_floor_add_one _
  have h1' : ((⌊100 * x + 1/2⌋ : ℤ) : ℚ) < 100 * x + 1/2 := by
    rcases lt_or_eq_of_le h1 with hlt | heq
    · exact hlt
    · exact absurd (show 100 * x - 1/2 = ((⌊100 * x + 1/2⌋ - 1 : ℤ) : ℚ) by
        push_cast; linarith) (hne _)
  have hmx : (100 : ℚ) * (-x) + 1/2 = -(100 * x) + 1/2 := by ring
  have hfloor : ⌊100 * (-x) + 1/2⌋ = -⌊100 * x + 1/2⌋ := by
    apply Int.floor_eq_iff.mpr
    constructor
    · rw [hmx]; push_cast; linarith
    · rw [hmx]; push_cast; linarith
  unfold round2
  rw [hfloor]
  push_cast
  ring

/-! ### `tradepy.utils` (not in `src/`)

`round_val` decorates a function with `round(·, 2)`; `calc_pct_chg`
computes a percentage change.  Modelled from the spec: "Every per-position
valuation, profit/loss, and percentage-change computation is rounded to 2
decimals at the point of calculation". -/

/-- Modelled from the spec: `tradepy.utils.calc_pct_chg` (file not in
`src/`) — the percentage change of `cur` versus `base`, rounded to 2
decimals at the point of calculation. -/
def calcPctChg (base cur : ℚ) : ℚ := round2 (100 * (cur - base) / base)

/-! ### `tradepy/core/position.py` -/

/-- `Position` (`tradepy/core/position.py`): symbol, entry price, share
count and the mutable mark price.  `__post_init__` sets `latest_price` to
the entry price when it is 0; positions built by the simulator therefore
start with `latestPrice = price`. -/
structure Position where
  timestamp : String
  code : String
  company : String
  price : ℚ
  shares : ℚ
  latestPrice : ℚ
  id : String
  deriving Repr, DecidableEq

/-- `Position.__post_init__`'s normalisation of `latest_price` (the `id`
generation is threaded explicitly through the simulator). -/
def mkPosition (timestamp code company : String) (price shares : ℚ) (id : String) :
    Position :=
  { timestamp := timestamp, code := code, company := company, price := price,
    shares := shares, latestPrice := price, id := id }

/-- `Position.total_value_at` (decorated with `round_val`). -/
def Position.totalValueAt (p : Position) (price : ℚ) : ℚ := round2 (price * p.shares)

/-- `Position.cost` (decorated with `round_val`). -/
def Position.cost (p : Position) : ℚ := round2 (p.totalValueAt p.price)

/-- `Position.chg_at` (decorated with `round_val`). -/
def Position.chgAt (p : Position) (price : ℚ) : ℚ := round2 (price - p.price)

/-- `Position.pct_chg_at` (decorated with `round_val`). -/
def Position.pctChgAt (p : Position) (price : ℚ) : ℚ := round2 (calcPctChg p.price price)

/-- `Position.price_at_pct_change` (decorated with `round_val`). -/
def Position.priceAtPctChange (p : Position) (pct : ℚ) : ℚ :=
  round2 (p.price * (1 + pct * (1/100)))

/-- `Position.update_price`. -/
def Position.updatePrice (p : Position) (price : ℚ) : Position :=
  { p with latestPrice := price }

/-- `Position.close`: records the realized exit price as the latest price. -/
def Position.closeAt (p : Position) (price : ℚ) : Position :=
  { p with latestPrice := price }

/-! ### `tradepy/backtesting/holdings.py` (not in `src/`)

Modelled from the spec: Holdings is "a collection of open Positions indexed
by symbol", with buy summing the positions' cost, sell summing the
positions' value at their latest price, and aggregate valuation the sum of
mark values, every per-position amount being the source's
`Position.cost` / `Position.total_value_at` (which round to 2 decimals).
The dict of positions is modelled as a list keyed by `code` (insertion
order preserved, insertion replaces an existing key in place). -/

/-- The held symbols, in holding order (`Holdings.position_codes`). -/
def holdingsCodes (h : List Position) : List String := h.map Position.code

/-- Modelled from the spec: dict insertion `positions[pos.code] = pos`. -/
def insertPosition (h : List Position) (p : Position) : List Position :=
  if p.code ∈ holdingsCodes h then
    h.map (fun q => if q.code = p.code then p else q)
  else h ++ [p]

/-- Modelled from the spec: `Holdings.buy` inserts every position. -/
def holdingsBuy (h : List Position) (ps : List Position) : List Position :=
  ps.foldl insertPosition h

/-- The total returned by `Holdings.buy`: the sum of the positions' cost. -/
def buyCostTotal (ps : List Position) : ℚ := (ps.map Position.cost).sum

/-- Modelled from the spec: dict deletion `del positions[pos.code]`. -/
def removeByCode (h : List Position) (c : String) : List Position :=
  h.filter (fun q => q.code ≠ c)

/-- Modelled from the spec: `Holdings.sell` removes every sold position. -/
def holdingsSell (h : List Position) (ps : List Position) : List Position :=
  ps.foldl (fun acc p => removeByCode acc p.code) h

/-- The total returned by `Holdings.sell`: the sum of the positions' value
at their latest (realized) price. -/
def sellProceedsTotal (ps : List Position) : ℚ :=
  (ps.map (fun p => p.totalValueAt p.latestPrice)).sum

/-- Modelled from the spec: `Holdings.get_total_worth`, the sum of mark
values of the held positions. -/
def holdingsWorth (h : List Position) : ℚ :=
  (h.map (fun p => p.totalValueAt p.latestPrice)).sum

/-- Modelled from the spec: `Holdings.tick` updates each held position's
latest price from the day's close-price lookup; positions whose symbol is
absent from the day's tradable frame are left untouched. -/
def holdingsTick (h : List Position) (lookup : String → Option ℚ) : List Position :=
  h.map (fun p =>
    match lookup p.code with
    | some pr => p.updatePrice pr
    | none => p)

/-! ### `Account` (`tradepy/backtesting/account.py`) -/

/-- `Account`: commission rates (percentages), cash balance and holdings. -/
structure Account where
  buyCommissionRate : ℚ
  sellCommissionRate : ℚ
  cashAmount : ℚ
  holdings : List Position
  deriving Repr, DecidableEq

/-- `Account.add_buy_commissions` (decorated with `round_val`). -/
def Account.addBuyCommissions (a : Account) (amount : ℚ) : ℚ :=
  round2 (amount * (1 + a.buyCommissionRate * (1/100)))

/-- `Account.take_sell_commissions` (decorated with `round_val`). -/
def Account.takeSellCommissions (a : Account) (amount : ℚ) : ℚ :=
  round2 (amount * (1 - a.sellCommissionRate * (1/100)))

/-- `Account.buy`: the holdings always receive the positions; the cash is
debited only when the walrus-bound `cost_total` is truthy (nonzero). -/
def Account.buy (a : Account) (ps : List Position) : Account :=
  let total := buyCostTotal ps
  let h := holdingsBuy a.holdings ps
  if total = 0 then { a with holdings := h }
  else { a with holdings := h,
                cashAmount := a.cashAmount - a.addBuyCommissions total }

/-- `Account.sell`: the positions are always removed; the cash is credited
only when the walrus-bound `close_total` is truthy (nonzero). -/
def Account.sell (a : Account) (ps : List Position) : Account :=
  let total := sellProceedsTotal ps
  let h := holdingsSell a.holdings ps
  if total = 0 then { a with holdings := h }
  else { a with holdings := h,
                cashAmount := a.cashAmount + a.takeSellCommissions total }

/-- `Account.tick`. -/
def Account.tick (a : Account) (lookup : String → Option ℚ) : Account :=
  if a.holdings.isEmpty then a
  else { a with holdings := holdingsTick a.holdings lookup }

/-- `Account.get_total_asset_value`. -/
def Account.getTotalAssetValue (a : Account) : ℚ :=
  holdingsWorth a.holdings + a.cashAmount

/-- `Account.get_positions_value`. -/
def Account.getPositionsValue (a : Account) : ℚ := holdingsWorth a.holdings

/-- `Account.clear`. -/
def Account.clear (a : Account) : Account := a.sell a.holdings

/-! ### Validity of ledger operations

The simulator only ever buys freshly-generated positions for symbols it
does not hold (`get_buy_signals` filters out held codes, `__post_init__`
sets the initial mark price to the entry price), and only ever sells
positions that are currently held, with distinct codes. -/

/-- The holdings key their positions by symbol: codes are distinct. -/
def HoldingsNodup (h : List Position) : Prop := (h.map Position.code).Nodup

/-- A buy batch as the simulator produces it: initial mark price equals
the entry price, fresh and pairwise distinct codes. -/
def ValidBuy (a : Account) (ps : List Position) : Prop :=
  (∀ p ∈ ps, p.latestPrice = p.price ∧ p.code ∉ holdingsCodes a.holdings)
  ∧ (ps.map Position.code).Nodup

/-- A sell batch as the simulator produces it: currently held positions
with pairwise distinct codes. -/
def ValidSell (a : Account) (ps : List Position) : Prop :=
  (∀ p ∈ ps, p ∈ a.holdings) ∧ (ps.map Position.code).Nodup

instance (a : Account) (ps : List Position) : Decidable (ValidBuy a ps) := by
  unfold ValidBuy; infer_instance

instance (a : Account) (ps : List Position) : Decidable (ValidSell a ps) := by
  unfold ValidSell; infer_instance

instance (h : List Position) : Decidable (HoldingsNodup h) := by
  unfold HoldingsNodup; infer_instance

/-! ### Ledger bookkeeping lemmas -/

theorem codes_insert_fresh (h : List Position) (p : Position)
    (hf : p.code ∉ holdingsCodes h) :
    holdingsCodes (insertPosition h p) = holdingsCodes h ++ [p.code] := by
  unfold insertPosition
  rw [if_neg hf]
  simp [holdingsCodes]

theorem worth_insert_fresh (h : List Position) (p : Position)
    (hf : p.code ∉ holdingsCodes h) :
    holdingsWorth (insertPosition h p)
      = holdingsWorth h + p.totalValueAt p.latestPrice := by
  unfold insertPosition
  rw [if_neg hf]
  simp [holdingsWorth]

theorem worth_buyAll (ps : List Position) : ∀ h : List Position,
    (∀ p ∈ ps, p.code ∉ holdingsCodes h) → (ps.map Position.code).Nodup →
    holdingsWorth (holdingsBuy h ps)
      = holdingsWorth h + (ps.map (fun p => p.totalValueAt p.latestPrice)).sum := by
  induction ps with
  | nil => intro h _ _; simp [holdingsBuy]
  | cons p ps ih =>
      intro h hf hnd
      have hpf : p.code ∉ holdingsCodes h := hf p (by simp)
      have hstep : holdingsBuy h (p :: ps) = holdingsBuy (insertPosition h p) ps := by
        simp [holdingsBuy]
      rw [hstep, ih (insertPosition h p) ?_ (by simpa using hnd.of_cons),
        worth_insert_fresh h p hpf]
      · simp; ring
      · intro q hq
        rw [codes_insert_fresh h p hpf]
        have h1 : q.code ∉ holdingsCodes h := hf q (by simp [hq])
        have h2 : q.code ≠ p.code := by
          intro hqp
          have hmem : p.code ∈ ps.map Position.code := by
            rw [← hqp]; exact List.mem_map_of_mem Position.code hq
          exact (List.nodup_cons.mp hnd).1 hmem
        simp [h1, h2]

theorem codes_buyAll (ps : List Position) : ∀ h : List Position,
    (∀ p ∈ ps, p.code ∉ holdingsCodes h) → (ps.map Position.code).Nodup →
    holdingsCodes (holdingsBuy h ps) = holdingsCodes h ++ ps.map Position.code := by
  induction ps with
  | nil => intro h _ _; simp [holdingsBuy, holdingsCodes]
  | cons p ps ih =>
      intro h hf hnd
      have hpf : p.code ∉ holdingsCodes h := hf p (by simp)
      have hstep : holdingsBuy h (p :: ps) = holdingsBuy (insertPosition h p) ps := by
        simp [holdingsBuy]
      rw [hstep, ih (insertPosition h p) ?_ (by simpa using hnd.of_cons),
        codes_insert_fresh h p hpf]
      · simp
      · intro q hq
        rw [codes_insert_fresh h p hpf]
        have h1 : q.code ∉ holdingsCodes h := hf q (by simp [hq])
        have h2 : q.code ≠ p.code := by
          intro hqp
          have hmem : p.code ∈ ps.map Position.code := by
            rw [← hqp]; exact List.mem_map_of_mem Position.code hq
          exact (List.nodup_cons.mp hnd).1 hmem
        simp [h1, h2]

theorem value_sum_eq_cost_total (ps : List Position)
    (h : ∀ p ∈ ps, p.latestPrice = p.price) :
    (ps.map (fun p => p.totalValueAt p.latestPrice)).sum = buyCostTotal ps := by
  unfold buyCostTotal
  congr 1
  apply List.map_congr_left
  intro p hp
  rw [h p hp]
  simp [Position.cost, Position.totalValueAt, round2_round2]

theorem is2Dec_buyCostTotal (ps : List Position) : Is2Dec (buyCostTotal ps) := by
  apply is2Dec_sum
  intro x hx
  obtain ⟨p, _, hpx⟩ := List.mem_map.mp hx
  rw [← hpx]
  exact is2Dec_round2 _

theorem is2Dec_sellProceedsTotal (ps : List Position) : Is2Dec (sellProceedsTotal ps) := by
  apply is2Dec_sum
  intro x hx
  obtain ⟨p, _, hpx⟩ := List.mem_map.mp hx
  rw [← hpx]
  exact is2Dec_round2 _

theorem worth_removeByCode (h : List Position) (p : Position)
    (hnd : HoldingsNodup h) (hp : p ∈ h) :
    holdingsWorth (removeByCode h p.code)
      = holdingsWorth h - p.totalValueAt p.latestPrice := by
  induction h with
  | nil => cases hp
  | cons q t ih =>
      rcases List.mem_cons.mp hp with hq | ht
      · subst hq
        have hkeep : removeByCode (p :: t) p.code = t := by
          have hall : ∀ r ∈ t, r.code ≠ p.code := by
            intro r hr hrc
            have : p.code ∈ t.map Position.code := by
              rw [← hrc]; exact List.mem_map_of_mem Position.code hr
            exact (List.nodup_cons.mp hnd).1 this
          simp only [removeByCode, List.filter_cons]
          simp only [ne_eq, decide_not]
          rw [if_neg (by simp)]
          rw [List.filter_eq_self.mpr]
          intro r hr
          simpa using hall r hr
        rw [hkeep]
        simp [holdingsWorth]
      · have hqc : q.code ≠ p.code := by
          intro hqp
          have : q.code ∈ t.map Position.code := by
            rw [hqp]; exact List.mem_map_of_mem Position.code ht
          exact (List.nodup_cons.mp hnd).1 this
        have hstep : removeByCode (q :: t) p.code = q :: removeByCode t p.code := by
          simp only [removeByCode, List.filter_cons]
          rw [if_pos (by simpa using hqc)]
        rw [hstep]
        have hndt : HoldingsNodup t := (List.nodup_cons.mp hnd).2
        have ihv := ih hndt ht
        simp only [holdingsWorth, List.map_cons, List.sum_cons] at ihv ⊢
        rw [ihv]
        ring

theorem mem_removeByCode (h : List Position) (c : String) (q : Position)
    (hq : q ∈ h) (hqc : q.code ≠ c) : q ∈ removeByCode h c := by
  simp [removeByCode, List.mem_filter, hq, hqc]

theorem nodup_removeByCode (h : List Position) (c : String)
    (hnd : HoldingsNodup h) : HoldingsNodup (removeByCode h c) :=
  ((List.filter_sublist h).map Position.code).nodup hnd

theorem worth_sellAll (ps : List Position) : ∀ h : List Position,
    HoldingsNodup h → (∀ p ∈ ps, p ∈ h) → (ps.map Position.code).Nodup →
    holdingsWorth (holdingsSell h ps) = holdingsWorth h - sellProceedsTotal ps := by
  induction ps with
  | nil => intro h _ _ _; simp [holdingsSell, sellProceedsTotal]
  | cons p ps ih =>
      intro h hnd hin hpnd
      have hstep : holdingsSell h (p :: ps) = holdingsSell (removeByCode h p.code) ps := by
        simp [holdingsSell]
      rw [hstep, ih (removeByCode h p.code) (nodup_removeByCode h p.code hnd) ?_
          (by simpa using hpnd.of_cons),
        worth_removeByCode h p hnd (hin p (by simp))]
      · simp only [sellProceedsTotal, List.map_cons, List.sum_cons]
        ring
      · intro q hq
        apply mem_removeByCode h p.code q (hin q (by simp [hq]))
        intro hqp
        have : p.code ∈ ps.map Position.code := by
          rw [← hqp]; exact List.mem_map_of_mem Position.code hq
        exact (List.nodup_cons.mp hpnd).1 this

theorem buy_def (a : Account) (ps : List Position) :
    a.buy ps = if buyCostTotal ps = 0 then { a with holdings := holdingsBuy a.holdings ps }
      else { a with holdings := holdingsBuy a.holdings ps,
                    cashAmount := a.cashAmount - a.addBuyCommissions (buyCostTotal ps) } := rfl

theorem sell_def (a : Account) (ps : List Position) :
    a.sell ps = if sellProceedsTotal ps = 0 then { a with holdings := holdingsSell a.holdings ps }
      else { a with holdings := holdingsSell a.holdings ps,
                    cashAmount := a.cashAmount + a.takeSellCommissions (sellProceedsTotal ps) } :=
  rfl

theorem buy_total_delta (a : Account) (ps : List Position)
    (hv : ValidBuy a ps) :
    (a.buy ps).getTotalAssetValue
      = a.getTotalAssetValue - round2 (buyCostTotal ps * a.buyCommissionRate / 100) := by
  obtain ⟨hall, hnd⟩ := hv
  have hworth : holdingsWorth (holdingsBuy a.holdings ps)
      = holdingsWorth a.holdings + buyCostTotal ps := by
    rw [worth_buyAll ps a.holdings (fun p hp => (hall p hp).2) hnd,
      value_sum_eq_cost_total ps (fun p hp => (hall p hp).1)]
  rw [buy_def]
  by_cases h0 : buyCostTotal ps = 0
  · rw [if_pos h0]
    show holdingsWorth (holdingsBuy a.holdings ps) + a.cashAmount
      = holdingsWorth a.holdings + a.cashAmount
        - round2 (buyCostTotal ps * a.buyCommissionRate / 100)
    rw [hworth, h0]
    norm_num [round2_zero]
  · rw [if_neg h0]
    have hcomm : a.addBuyCommissions (buyCostTotal ps)
        = buyCostTotal ps + round2 (buyCostTotal ps * a.buyCommissionRate / 100) := by
      unfold Account.addBuyCommissions
      have harg : buyCostTotal ps * (1 + a.buyCommissionRate * (1/100))
          = buyCostTotal ps + buyCostTotal ps * a.buyCommissionRate / 100 := by ring
      rw [harg, round2_add_left (is2Dec_buyCostTotal ps)]
    show holdingsWorth (holdingsBuy a.holdings ps)
        + (a.cashAmount - a.addBuyCommissions (buyCostTotal ps))
      = holdingsWorth a.holdings + a.cashAmount
        - round2 (buyCostTotal ps * a.buyCommissionRate / 100)
    rw [hworth, hcomm]
    ring

theorem sell_total_delta (a : Account) (ps : List Position)
    (hnd : HoldingsNodup a.holdings) (hv : ValidSell a ps)
    (ht : NotHalfTie (sellProceedsTotal ps * a.sellCommissionRate / 100)) :
    (a.sell ps).getTotalAssetValue
      = a.getTotalAssetValue - round2 (sellProceedsTotal ps * a.sellCommissionRate / 100) := by
  obtain ⟨hall, hpnd⟩ := hv
  have hworth : holdingsWorth (holdingsSell a.holdings ps)
      = holdingsWorth a.holdings - sellProceedsTotal ps :=
    worth_sellAll ps a.holdings hnd hall hpnd
  rw [sell_def]
  by_cases h0 : sellProceedsTotal ps = 0
  · rw [if_pos h0]
    show holdingsWorth (holdingsSell a.holdings ps) + a.cashAmount
      = holdingsWorth a.holdings + a.cashAmount
        - round2 (sellProceedsTotal ps * a.sellCommissionRate / 100)
    rw [hworth, h0]
    norm_num [round2_zero]
  · rw [if_neg h0]
    have hcomm : a.takeSellCommissions (sellProceedsTotal ps)
        = sellProceedsTotal ps - round2 (sellProceedsTotal ps * a.sellCommissionRate / 100) := by
      unfold Account.takeSellCommissions
      have harg : sellProceedsTotal ps * (1 - a.sellCommissionRate * (1/100))
          = sellProceedsTotal ps + -(sellProceedsTotal ps * a.sellCommissionRate / 100) := by
        ring
      rw [harg, round2_add_left (is2Dec_sellProceedsTotal ps), round2_neg ht]
      ring
    show holdingsWorth (holdingsSell a.holdings ps)
        + (a.cashAmount + a.takeSellCommissions (sellProceedsTotal ps))
      = holdingsWorth a.holdings + a.cashAmount
        - round2 (sellProceedsTotal ps * a.sellCommissionRate / 100)
    rw [hworth, hcomm]
    ring

/-! ### Sequences of ledger operations -/

/-- A buy or sell operation against the ledger. -/
inductive LedgerOp where
  | buyOp (ps : List Position)
  | sellOp (ps : List Position)

/-- Applying one ledger operation. -/
def applyOp (a : Account) : LedgerOp → Account
  | .buyOp ps => a.buy ps
  | .sellOp ps => a.sell ps

/-- Applying a sequence of ledger operations in order. -/
def applyOps (a : Account) (ops : List LedgerOp) : Account :=
  ops.foldl applyOp a

/-- Validity of one operation against the current account state. -/
def ValidOp (a : Account) : LedgerOp → Prop
  | .buyOp ps => ValidBuy a ps
  | .sellOp ps => ValidSell a ps

/-- Validity of a whole sequence of operations, each against the state
reached by its predecessors. -/
inductive ValidSeq : Account → List LedgerOp → Prop
  | nil (a : Account) : ValidSeq a []
  | cons (a : Account) (op : LedgerOp) (ops : List LedgerOp) :
      ValidOp a op → ValidSeq (applyOp a op) ops → ValidSeq a (op :: ops)

theorem buy_fields (a : Account) (ps : List Position) :
    (a.buy ps).buyCommissionRate = a.buyCommissionRate
    ∧ (a.buy ps).sellCommissionRate = a.sellCommissionRate
    ∧ (a.buy ps).holdings = holdingsBuy a.holdings ps := by
  rw [buy_def]
  split <;> exact ⟨rfl, rfl, rfl⟩

theorem sell_fields (a : Account) (ps : List Position) :
    (a.sell ps).buyCommissionRate = a.buyCommissionRate
    ∧ (a.sell ps).sellCommissionRate = a.sellCommissionRate
    ∧ (a.sell ps).holdings = holdingsSell a.holdings ps := by
  rw [sell_def]
  split <;> exact ⟨rfl, rfl, rfl⟩

theorem nodup_buyAll (a : Account) (ps : List Position) (hnd : HoldingsNodup a.holdings)
    (hv : ValidBuy a ps) : HoldingsNodup (holdingsBuy a.holdings ps) := by
  obtain ⟨hall, hpnd⟩ := hv
  unfold HoldingsNodup
  rw [show (holdingsBuy a.holdings ps).map Position.code
        = holdingsCodes (holdingsBuy a.holdings ps) from rfl,
    codes_buyAll ps a.holdings (fun p hp => (hall p hp).2) hpnd]
  rw [List.nodup_append]
  refine ⟨hnd, hpnd, ?_⟩
  intro c hc hc2
  obtain ⟨p, hp, hpc⟩ := List.mem_map.mp hc2
  exact (hall p hp).2 (by rw [hpc]; exact hc)

theorem nodup_sellAll (h : List Position) (ps : List Position)
    (hnd : HoldingsNodup h) : HoldingsNodup (holdingsSell h ps) := by
  induction ps generalizing h with
  | nil => simpa [holdingsSell] using hnd
  | cons p ps ih =>
      have hstep : holdingsSell h (p :: ps) = holdingsSell (removeByCode h p.code) ps := by
        simp [holdingsSell]
      rw [hstep]
      exact ih _ (nodup_removeByCode h p.code hnd)

theorem zero_commission_seq (ops : List LedgerOp) : ∀ a : Account,
    a.buyCommissionRate = 0 → a.sellCommissionRate = 0 →
    HoldingsNodup a.holdings → ValidSeq a ops →
    (applyOps a ops).getTotalAssetValue = a.getTotalAssetValue := by
  induction ops with
  | nil => intro a _ _ _ _; simp [applyOps]
  | cons op ops ih =>
      intro a h0b h0s hnd hv
      cases hv with
      | cons _ _ _ hop hseq =>
          have hstep : applyOps a (op :: ops) = applyOps (applyOp a op) ops := by
            simp [applyOps]
          have hone : (applyOp a op).getTotalAssetValue = a.getTotalAssetValue := by
            cases op with
            | buyOp ps =>
                have h00 : buyCostTotal ps * a.buyCommissionRate / 100 = 0 := by
                  rw [h0b]; ring
                have hd := buy_total_delta a ps hop
                simp only [applyOp]
                rw [hd, h00, round2_zero, sub_zero]
            | sellOp ps =>
                have h00 : sellProceedsTotal ps * a.sellCommissionRate / 100 = 0 := by
                  rw [h0s]; ring
                have htie : NotHalfTie (sellProceedsTotal ps * a.sellCommissionRate / 100) := by
                  rw [h00]
                  exact notHalfTie_zero
                have hd := sell_total_delta a ps hnd hop htie
                simp only [applyOp]
                rw [hd, h00, round2_zero, sub_zero]
          rw [hstep, ih (applyOp a op) ?_ ?_ ?_ hseq, hone]
          · cases op with
            | buyOp ps =>
                simp only [applyOp]
                rw [(buy_fields a ps).1, h0b]
            | sellOp ps =>
                simp only [applyOp]
                rw [(sell_fields a ps).1, h0b]
          · cases op with
            | buyOp ps =>
                simp only [applyOp]
                rw [(buy_fields a ps).2.1, h0s]
            | sellOp ps =>
                simp only [applyOp]
                rw [(sell_fields a ps).2.1, h0s]
          · cases op with
            | buyOp ps =>
                simp only [applyOp]
                rw [(buy_fields a ps).2.2]
                exact nodup_buyAll a ps hnd hop
            | sellOp ps =>
                simp only [applyOp]
                rw [(sell_fields a ps).2.2]
                exact nodup_sellAll a.holdings ps hnd

/-- **C1** (amended): a buy changes the total asset value (cash plus sum of
held positions' mark values) by exactly minus the rounded commission
`round2(cost_total · buy_rate% / 100)`; a sell by exactly minus
`round2(proceeds_total · sell_rate% / 100)` **provided** the commission
amount does not land exactly on a half-cent rounding boundary (the code
rounds the commission-inclusive gross, the claim rounds the commission
alone, and the two can differ by one cent exactly at such a tie); with zero
commission rates the total asset value is unchanged by any valid sequence
of buys and sells. -/
theorem claim_C1_value_conservation :
    (∀ (a : Account) (ps : List Position), ValidBuy a ps →
      (a.buy ps).getTotalAssetValue
        = a.getTotalAssetValue - round2 (buyCostTotal ps * a.buyCommissionRate / 100))
    ∧ (∀ (a : Account) (ps : List Position), HoldingsNodup a.holdings → ValidSell a ps →
      NotHalfTie (sellProceedsTotal ps * a.sellCommissionRate / 100) →
      (a.sell ps).getTotalAssetValue
        = a.getTotalAssetValue - round2 (sellProceedsTotal ps * a.sellCommissionRate / 100))
    ∧ (∀ (a : Account) (ops : List LedgerOp), a.buyCommissionRate = 0 →
      a.sellCommissionRate = 0 → HoldingsNodup a.holdings → ValidSeq a ops →
      (applyOps a ops).getTotalAssetValue = a.getTotalAssetValue) :=
  ⟨buy_total_delta, sell_total_delta, fun a ops h0b h0s hnd hv =>
    zero_commission_seq ops a h0b h0s hnd hv⟩

/-- **C1** counterexample to the claim as stated: selling a position of
total value 1.00 at sell commission rate 0.5% changes the total asset
value by 0 (the code credits `round2(1.00 · 0.995) = 1.00`), not by the
claimed commission `round2(1.00 · 0.5/100) = 0.01`. -/
theorem claim_C1_counterexample :
    ((Account.mk 0 (1/2) 0 [Position.mk "d" "000001" "A" 1 1 1 "p"]).sell
        [Position.mk "d" "000001" "A" 1 1 1 "p"]).getTotalAssetValue
      ≠ (Account.mk 0 (1/2) 0 [Position.mk "d" "000001" "A" 1 1 1 "p"]).getTotalAssetValue
        - round2 (sellProceedsTotal [Position.mk "d" "000001" "A" 1 1 1 "p"]
            * (Account.mk 0 (1/2) 0 [Position.mk "d" "000001" "A" 1 1 1 "p"]).sellCommissionRate
            / 100) := by
  norm_num [Account.sell, Account.getTotalAssetValue, Account.takeSellCommissions,
    sellProceedsTotal, holdingsSell, holdingsWorth, removeByCode,
    Position.totalValueAt, round2]

/-- **C1** witness: the amended theorem applied at concrete inputs — a buy
of cost 50.00 at rate 1% (commission 0.50) and a sell of proceeds 50.00 at
rate 1% (commission 0.50, not a half-cent tie). -/
theorem claim_C1_witness :
    (ValidBuy (Account.mk 1 (1/2) 100 []) [mkPosition "d" "000001" "A" 10 5 "p1"]
      ∧ ((Account.mk 1 (1/2) 100 []).buy [mkPosition "d" "000001" "A" 10 5 "p1"]).getTotalAssetValue
        = (Account.mk 1 (1/2) 100 []).getTotalAssetValue
          - round2 (buyCostTotal [mkPosition "d" "000001" "A" 10 5 "p1"]
              * (Account.mk 1 (1/2) 100 []).buyCommissionRate / 100))
    ∧ (HoldingsNodup (Account.mk 0 1 0 [Position.mk "d" "000002" "B" 10 5 10 "p2"]).holdings
      ∧ ValidSell (Account.mk 0 1 0 [Position.mk "d" "000002" "B" 10 5 10 "p2"])
          [Position.mk "d" "000002" "B" 10 5 10 "p2"]
      ∧ ((Account.mk 0 1 0 [Position.mk "d" "000002" "B" 10 5 10 "p2"]).sell
            [Position.mk "d" "000002" "B" 10 5 10 "p2"]).getTotalAssetValue
        = (Account.mk 0 1 0 [Position.mk "d" "000002" "B" 10 5 10 "p2"]).getTotalAssetValue
          - round2 (sellProceedsTotal [Position.mk "d" "000002" "B" 10 5 10 "p2"]
              * (Account.mk 0 1 0 [Position.mk "d" "000002" "B" 10 5 10 "p2"]).sellCommissionRate
              / 100)) := by
  have hvb : ValidBuy (Account.mk 1 (1/2) 100 []) [mkPosition "d" "000001" "A" 10 5 "p1"] := by
    constructor
    · intro p hp
      rw [List.mem_singleton.mp hp]
      exact ⟨rfl, by simp [holdingsCodes]⟩
    · simp
  have hnd2 : HoldingsNodup
      (Account.mk 0 1 0 [Position.mk "d" "000002" "B" 10 5 10 "p2"]).holdings := by
    simp [HoldingsNodup]
  have hvs : ValidSell (Account.mk 0 1 0 [Position.mk "d" "000002" "B" 10 5 10 "p2"])
      [Position.mk "d" "000002" "B" 10 5 10 "p2"] := by
    constructor
    · intro p hp
      rw [List.mem_singleton.mp hp]
      simp
    · simp
  have htie : NotHalfTie
      (sellProceedsTotal [Position.mk "d" "000002" "B" 10 5 10 "p2"]
        * (Account.mk 0 1 0 [Position.mk "d" "000002" "B" 10 5 10 "p2"]).sellCommissionRate
        / 100) := by
    apply notHalfTie_of_ne_int
    intro n hn
    have hp : sellProceedsTotal [Position.mk "d" "000002" "B" 10 5 10 "p2"] = 50 := by
      norm_num [sellProceedsTotal, Position.totalValueAt, round2]
    rw [hp] at hn
    norm_num at hn
    have h2 : (2 * n : ℚ) = 99 := by linarith
    have h3 : (2 * n : ℤ) = 99 := by exact_mod_cast h2
    omega
  exact ⟨⟨hvb, claim_C1_value_conservation.1 _ _ hvb⟩,
    ⟨hnd2, hvs, claim_C1_value_conservation.2.1 _ _ hnd2 hvs htie⟩⟩

/-! ### Day bars and the strategy's exit rules
(`tradepy/backtesting/strategy.py`) -/

/-- One row of a day's frame: OHLC plus the strategy's buy/close signal
predicates evaluated on the row's indicator columns (the predicates are
pure functions of the row, embedded as precomputed booleans). -/
structure Row where
  code : String
  company : String
  openPrice : ℚ
  closePrice : ℚ
  high : ℚ
  low : ℚ
  buySig : Bool
  closeSig : Bool
  deriving Repr, DecidableEq

/-- `StrategyBase.should_take_profit`: at the opening, exit at the open
price; during the exchange, exit at the exact threshold price. -/
def shouldTakeProfit (takeProfit : ℚ) (tick : Row) (position : Position) : Option ℚ :=
  if calcPctChg position.price tick.openPrice ≥ takeProfit then some tick.openPrice
  else if calcPctChg position.price tick.high ≥ takeProfit then
    some (position.priceAtPctChange takeProfit)
  else none

/-- `StrategyBase.should_stop_loss` (symmetric, with open and low). -/
def shouldStopLoss (stopLoss : ℚ) (tick : Row) (position : Position) : Option ℚ :=
  if calcPctChg position.price tick.openPrice ≤ -stopLoss then some tick.openPrice
  else if calcPctChg position.price tick.low ≤ -stopLoss then
    some (position.priceAtPctChange (-stopLoss))
  else none

/-- **C2**: if the percentage change of the day's open versus the entry
price meets or exceeds the take-profit threshold, the exit price is
exactly the open; otherwise, if the percentage change of the day's high
meets or exceeds it, the exit price is exactly
`round2(entry · (1 + take_profit/100))`, never the high.  In particular
(entry 10.00, take-profit 10%): open 10.0 / high 11.5 exits at 11.00 (not
11.5), and open 11.2 exits at 11.20. -/
theorem claim_C2_take_profit_price :
    (∀ (tp : ℚ) (tick : Row) (pos : Position),
      calcPctChg pos.price tick.openPrice ≥ tp →
      shouldTakeProfit tp tick pos = some tick.openPrice)
    ∧ (∀ (tp : ℚ) (tick : Row) (pos : Position),
      calcPctChg pos.price tick.openPrice < tp →
      calcPctChg pos.price tick.high ≥ tp →
      shouldTakeProfit tp tick pos = some (round2 (pos.price * (1 + tp / 100))))
    ∧ (shouldTakeProfit 10 (Row.mk "000001" "A" 10 11 11.5 9.8 false false)
        (Position.mk "d" "000001" "A" 10 100 10 "p") = some 11
      ∧ some (11 : ℚ) ≠ some (11.5 : ℚ))
    ∧ shouldTakeProfit 10 (Row.mk "000001" "A" 11.2 11 11.5 9.8 false false)
        (Position.mk "d" "000001" "A" 10 100 10 "p") = some 11.2 := by
  refine ⟨?_, ?_, ⟨?_, by norm_num⟩, ?_⟩
  · intro tp tick pos h
    unfold shouldTakeProfit
    rw [if_pos h]
  · intro tp tick pos h1 h2
    unfold shouldTakeProfit
    rw [if_neg (not_le.mpr h1), if_pos h2]
    have harg : pos.price * (1 + tp * (1/100)) = pos.price * (1 + tp / 100) := by ring
    rw [Position.priceAtPctChange, harg]
  · norm_num [shouldTakeProfit, calcPctChg, Position.priceAtPctChange, round2]
  · norm_num [shouldTakeProfit, calcPctChg, Position.priceAtPctChange, round2]

/-- **C2** witness: both conditional branches of the theorem applied at
concrete inputs (the two tie-break examples from the spec). -/
theorem claim_C2_witness :
    (calcPctChg 10 11.2 ≥ 10
      ∧ shouldTakeProfit 10 (Row.mk "000001" "A" 11.2 11 11.5 9.8 false false)
          (Position.mk "d" "000001" "A" 10 100 10 "p") = some 11.2)
    ∧ (calcPctChg 10 10 < 10 ∧ calcPctChg 10 11.5 ≥ 10
      ∧ shouldTakeProfit 10 (Row.mk "000001" "A" 10 11 11.5 9.8 false false)
          (Position.mk "d" "000001" "A" 10 100 10 "p")
        = some (round2 ((10:ℚ) * (1 + 10 / 100)))) := by
  have h1 : calcPctChg 10 11.2 ≥ (10:ℚ) := by norm_num [calcPctChg, round2]
  have h2 : calcPctChg 10 10 < (10:ℚ) := by norm_num [calcPctChg, round2]
  have h3 : calcPctChg 10 11.5 ≥ (10:ℚ) := by norm_num [calcPctChg, round2]
  exact ⟨⟨h1, claim_C2_take_profit_price.1 10
      (Row.mk "000001" "A" 11.2 11 11.5 9.8 false false)
      (Position.mk "d" "000001" "A" 10 100 10 "p") h1⟩,
    ⟨h2, h3, claim_C2_take_profit_price.2.1 10
      (Row.mk "000001" "A" 10 11 11.5 9.8 false false)
      (Position.mk "d" "000001" "A" 10 100 10 "p") h2 h3⟩⟩

/-! ### C10: no cash-sufficiency check on buys -/

theorem mem_insertPosition_of_ne (h : List Position) (q p : Position)
    (hp : p ∈ h) (hne : q.code ≠ p.code) : p ∈ insertPosition h q := by
  unfold insertPosition
  split
  · have hpc : p.code ≠ q.code := fun hc => hne hc.symm
    have hfix : (fun r => if r.code = q.code then q else r) p = p := by
      simp only [if_neg hpc]
    rw [← hfix]
    exact List.mem_map_of_mem _ hp
  · exact List.mem_append_left _ hp

theorem mem_buyAll_preserved (ps : List Position) : ∀ (h : List Position) (p : Position),
    p ∈ h → (∀ q ∈ ps, q.code ≠ p.code) → p ∈ holdingsBuy h ps := by
  induction ps with
  | nil => intro h p hp _; simpa [holdingsBuy] using hp
  | cons q ps ih =>
      intro h p hp hne
      have hstep : holdingsBuy h (q :: ps) = holdingsBuy (insertPosition h q) ps := by
        simp [holdingsBuy]
      rw [hstep]
      exact ih _ p (mem_insertPosition_of_ne h q p hp (hne q (by simp)))
        (fun r hr => hne r (by simp [hr]))

theorem mem_buyAll (ps : List Position) : ∀ (h : List Position),
    (∀ p ∈ ps, p.code ∉ holdingsCodes h) → (ps.map Position.code).Nodup →
    ∀ p ∈ ps, p ∈ holdingsBuy h ps := by
  induction ps with
  | nil => intro h _ _ p hp; cases hp
  | cons q ps ih =>
      intro h hf hnd p hp
      have hstep : holdingsBuy h (q :: ps) = holdingsBuy (insertPosition h q) ps := by
        simp [holdingsBuy]
      rw [hstep]
      rcases List.mem_cons.mp hp with hq | hmem
      · subst hq
        apply mem_buyAll_preserved
        · unfold insertPosition
          rw [if_neg (hf p (by simp))]
          exact List.mem_append_right _ (by simp)
        · intro r hr hrc
          have : p.code ∈ ps.map Position.code := by
            rw [← hrc]; exact List.mem_map_of_mem Position.code hr
          exact (List.nodup_cons.mp hnd).1 this
      · apply ih (insertPosition h q) ?_ (by simpa using hnd.of_cons) p hmem
        intro r hr
        rw [codes_insert_fresh h q (hf q (by simp))]
        have h1 : r.code ∉ holdingsCodes h := hf r (by simp [hr])
        have h2 : r.code ≠ q.code := by
          intro hrq
          have : q.code ∈ ps.map Position.code := by
            rw [← hrq]; exact List.mem_map_of_mem Position.code hr
          exact (List.nodup_cons.mp hnd).1 this
        simp [h1, h2]

/-- **C10**: `Account.buy` performs no cash-sufficiency check: with a
nonzero cost total it unconditionally debits the commission-inclusive
total from the cash balance, still inserts every position into the
holdings, and when that total exceeds the available cash the balance goes
negative (no error is raised: the operation is a total function). -/
theorem claim_C10_unchecked_negative_cash :
    ∀ (a : Account) (ps : List Position), ValidBuy a ps → buyCostTotal ps ≠ 0 →
      (a.buy ps).cashAmount = a.cashAmount - a.addBuyCommissions (buyCostTotal ps)
      ∧ (∀ p ∈ ps, p ∈ (a.buy ps).holdings)
      ∧ (a.cashAmount < a.addBuyCommissions (buyCostTotal ps) →
        (a.buy ps).cashAmount < 0) := by
  intro a ps hv h0
  obtain ⟨hall, hnd⟩ := hv
  have hcash : (a.buy ps).cashAmount
      = a.cashAmount - a.addBuyCommissions (buyCostTotal ps) := by
    rw [buy_def, if_neg h0]
  refine ⟨hcash, ?_, ?_⟩
  · intro p hp
    rw [(buy_fields a ps).2.2]
    exact mem_buyAll ps a.holdings (fun q hq => (hall q hq).2) hnd p hp
  · intro hlt
    rw [hcash]
    linarith

/-- **C10** witness: buying 100 shares at 10.00 with 5.00 cash leaves the
cash balance at `5.00 − 1000.00 = −995.00` and the position held. -/
theorem claim_C10_witness :
    ValidBuy (Account.mk 0 0 5 []) [mkPosition "d" "000001" "A" 10 100 "p1"]
    ∧ buyCostTotal [mkPosition "d" "000001" "A" 10 100 "p1"] ≠ 0
    ∧ ((Account.mk 0 0 5 []).buy [mkPosition "d" "000001" "A" 10 100 "p1"]).cashAmount
        = (Account.mk 0 0 5 []).cashAmount
          - (Account.mk 0 0 5 []).addBuyCommissions
              (buyCostTotal [mkPosition "d" "000001" "A" 10 100 "p1"])
    ∧ (∀ p ∈ [mkPosition "d" "000001" "A" 10 100 "p1"],
        p ∈ ((Account.mk 0 0 5 []).buy [mkPosition "d" "000001" "A" 10 100 "p1"]).holdings)
    ∧ ((Account.mk 0 0 5 []).cashAmount
        < (Account.mk 0 0 5 []).addBuyCommissions
            (buyCostTotal [mkPosition "d" "000001" "A" 10 100 "p1"]) →
      ((Account.mk 0 0 5 []).buy [mkPosition "d" "000001" "A" 10 100 "p1"]).cashAmount < 0) := by
  have hvb : ValidBuy (Account.mk 0 0 5 []) [mkPosition "d" "000001" "A" 10 100 "p1"] := by
    constructor
    · intro p hp
      rw [List.mem_singleton.mp hp]
      exact ⟨rfl, by simp [holdingsCodes]⟩
    · simp
  have h0 : buyCostTotal [mkPosition "d" "000001" "A" 10 100 "p1"] ≠ 0 := by
    norm_num [buyCostTotal, mkPosition, Position.cost, Position.totalValueAt, round2]
  have hmain := claim_C10_unchecked_negative_cash (Account.mk 0 0 5 [])
    [mkPosition "d" "000001" "A" 10 100 "p1"] hvb h0
  exact ⟨hvb, h0, hmain.1, hmain.2.1, hmain.2.2⟩

/-! ### `assign_factor_value_to_day` (`tradepy/backtesting/backtester.py`)

The numba-compiled forward merge scan.  The inner `while` loop reads
`fac_ts[i + 1]` before any bounds check, so running past the end of the
factor series raises an index error, modelled as `none`. -/

/-- The inner `while` loop: starting from `i`, advance while
`fac_ts[i + 1] <= ts`; reading `fac_ts[i + 1]` out of bounds fails. -/
def advanceFactorIdx (facTs : List ℚ) (ts : ℚ) (i : ℕ) : Option ℕ :=
  if h : i + 1 < facTs.length then
    if facTs.get ⟨i + 1, h⟩ > ts then some i
    else advanceFactorIdx facTs ts (i + 1)
  else none
termination_by facTs.length - i

/-- The outer `for` loop over the bars' timestamps, threading the
persistent index `i` and collecting `fac_vals[i]`. -/
def assignFactorLoop (facTs facVals : List ℚ) : ℕ → List ℚ → Option (List ℚ)
  | _, [] => some []
  | i, ts :: rest =>
      (advanceFactorIdx facTs ts i).bind (fun j =>
        (facVals.get? j).bind (fun v =>
          (assignFactorLoop facTs facVals j rest).map (fun vs => v :: vs)))

/-- `assign_factor_value_to_day(fac_ts, fac_vals, timestamps)`. -/
def assignFactorValueToDay (facTs facVals timestamps : List ℚ) : Option (List ℚ) :=
  assignFactorLoop facTs facVals 0 timestamps

/-- How many factor dates are `≤ ts`. -/
def factorCountLE (facTs : List ℚ) (ts : ℚ) : ℕ :=
  facTs.countP (fun t => decide (t ≤ ts))

/-- The index the scan actually lands on for a bar at `ts`: the last
factor index whose date is `≤ ts`, or index 0 when the bar predates every
factor. -/
def specFactorIdx (facTs : List ℚ) (ts : ℚ) : ℕ := factorCountLE facTs ts - 1

/-- The claim's step function over a sorted factor series: each bar gets
the value at `specFactorIdx` — for bars on/after the first factor date
this is the most recent factor whose effective date is `≤` the bar's
date. -/
def specAssignFactors (facTs facVals timestamps : List ℚ) : List ℚ :=
  timestamps.map (fun ts => facVals.getD (specFactorIdx facTs ts) 0)

theorem factorCountLE_mono (l : List ℚ) {t1 t2 : ℚ} (h : t1 ≤ t2) :
    factorCountLE l t1 ≤ factorCountLE l t2 := by
  induction l with
  | nil => simp [factorCountLE]
  | cons a t ih =>
      unfold factorCountLE at *
      rw [List.countP_cons, List.countP_cons]
      by_cases ha : a ≤ t1
      · have ha2 : a ≤ t2 := le_trans ha h
        have e1 : (if decide (a ≤ t1) = true then 1 else 0) = 1 := by simp [ha]
        have e2 : (if decide (a ≤ t2) = true then 1 else 0) = 1 := by simp [ha2]
        rw [e1, e2]
        omega
      · have e1 : (if decide (a ≤ t1) = true then 1 else 0) = 0 := by simp [ha]
        have e2 : (if decide (a ≤ t2) = true then 1 else 0) ≤ 1 := by
          split <;> omega
        rw [e1]
        omega

theorem sorted_get_le_iff (l : List ℚ) (ts : ℚ) (hs : l.Pairwise (· ≤ ·)) :
    ∀ (k : ℕ) (hk : k < l.length), (l.get ⟨k, hk⟩ ≤ ts ↔ k < factorCountLE l ts) := by
  induction l with
  | nil => intro k hk; simp at hk
  | cons a t ih =>
      have hs' : t.Pairwise (· ≤ ·) := hs.of_cons
      have hall : ∀ x ∈ t, a ≤ x := (List.pairwise_cons.mp hs).1
      intro k hk
      unfold factorCountLE
      rw [List.countP_cons]
      match k with
      | 0 =>
          show a ≤ ts ↔ _
          by_cases ha : a ≤ ts
          · have e1 : (if decide (a ≤ ts) = true then 1 else 0) = 1 := by simp [ha]
            rw [e1]
            exact ⟨fun _ => by omega, fun _ => ha⟩
          · have ht0 : t.countP (fun x => decide (x ≤ ts)) = 0 := by
              rw [List.countP_eq_zero]
              intro x hx
              simp only [decide_eq_true_eq]
              exact fun hxle => ha (le_trans (hall x hx) hxle)
            have e1 : (if decide (a ≤ ts) = true then 1 else 0) = 0 := by simp [ha]
            rw [e1, ht0]
            simp [ha]
      | k + 1 =>
          have hk' : k < t.length := by simpa using hk
          show t.get ⟨k, hk'⟩ ≤ ts ↔ _
          rw [ih hs' k hk']
          by_cases ha : a ≤ ts
          · have e1 : (if decide (a ≤ ts) = true then 1 else 0) = 1 := by simp [ha]
            rw [e1]
            unfold factorCountLE
            omega
          · have ht0 : t.countP (fun x => decide (x ≤ ts)) = 0 := by
              rw [List.countP_eq_zero]
              intro x hx
              simp only [decide_eq_true_eq]
              exact fun hxle => ha (le_trans (hall x hx) hxle)
            have e1 : (if decide (a ≤ ts) = true then 1 else 0) = 0 := by simp [ha]
            rw [e1]
            unfold factorCountLE
            omega

theorem advance_spec_aux (facTs : List ℚ) (ts : ℚ) (m : ℕ)
    (hchar : ∀ (k : ℕ) (hk : k < facTs.length), (facTs.get ⟨k, hk⟩ ≤ ts ↔ k < m))
    (hm : m < facTs.length) :
    ∀ (fuel i : ℕ), facTs.length - i ≤ fuel → i + 1 < facTs.length →
    advanceFactorIdx facTs ts i = some (max i (m - 1)) := by
  intro fuel
  induction fuel with
  | zero => intro i hle hacc; omega
  | succ f ih =>
      intro i hle hacc
      unfold advanceFactorIdx
      rw [dif_pos hacc]
      by_cases hgt : facTs.get ⟨i + 1, hacc⟩ > ts
      · rw [if_pos hgt]
        have hnm : ¬ (i + 1 < m) := fun hlt =>
          absurd ((hchar (i + 1) hacc).mpr hlt) (not_le.mpr hgt)
        rw [Nat.max_eq_left (by omega)]
      · rw [if_neg hgt]
        have h1 : i + 1 < m := (hchar (i + 1) hacc).mp (not_lt.mp hgt)
        have hacc' : (i + 1) + 1 < facTs.length := by omega
        rw [ih (i + 1) (by omega) hacc']
        rw [Nat.max_eq_right (show i + 1 ≤ m - 1 by omega),
          Nat.max_eq_right (show i ≤ m - 1 by omega)]

/-- The `while` loop lands on `specFactorIdx` whenever the factor series
is sorted, the entry index is at most the target, and the target access
stays in bounds. -/
theorem advance_spec (facTs : List ℚ) (ts : ℚ) (hs : facTs.Pairwise (· ≤ ·))
    (hm : factorCountLE facTs ts < facTs.length) (i : ℕ)
    (hacc : i + 1 < facTs.length) (hi : i ≤ specFactorIdx facTs ts) :
    advanceFactorIdx facTs ts i = some (specFactorIdx facTs ts) := by
  have hi' : i ≤ factorCountLE facTs ts - 1 := hi
  rw [advance_spec_aux facTs ts (factorCountLE facTs ts)
      (sorted_get_le_iff facTs ts hs) hm facTs.length i (by omega) hacc,
    Nat.max_eq_right hi']
  rfl

theorem assignLoop_spec (facTs facVals : List ℚ) (hs : facTs.Pairwise (· ≤ ·))
    (hlen : facVals.length = facTs.length) :
    ∀ (tss : List ℚ), tss.Pairwise (· ≤ ·) →
    (∀ ts ∈ tss, factorCountLE facTs ts < facTs.length) →
    ∀ i : ℕ, i + 1 < facTs.length → (∀ ts ∈ tss, i ≤ specFactorIdx facTs ts) →
    assignFactorLoop facTs facVals i tss
      = some (tss.map (fun ts => facVals.getD (specFactorIdx facTs ts) 0)) := by
  intro tss
  induction tss with
  | nil => intro _ _ i _ _; simp [assignFactorLoop]
  | cons ts rest ih =>
      intro hpw hmall i hacc hile
      have hmts : factorCountLE facTs ts < facTs.length := hmall ts (by simp)
      have hadv := advance_spec facTs ts hs hmts i hacc (hile ts (by simp))
      have hjlt : specFactorIdx facTs ts < facVals.length := by
        rw [hlen]
        unfold specFactorIdx
        omega
      have hget : facVals.get? (specFactorIdx facTs ts)
          = some (facVals.getD (specFactorIdx facTs ts) 0) := by
        rw [List.get?_eq_getElem?, List.getD_eq_getElem?_getD,
          List.getElem?_eq_getElem hjlt]
        rfl
      have hacc' : specFactorIdx facTs ts + 1 < facTs.length := by
        unfold specFactorIdx
        omega
      have hrest : assignFactorLoop facTs facVals (specFactorIdx facTs ts) rest
          = some (rest.map (fun t => facVals.getD (specFactorIdx facTs t) 0)) := by
        apply ih hpw.of_cons (fun t ht => hmall t (by simp [ht])) _ hacc'
        intro t ht
        have hts : ts ≤ t := (List.pairwise_cons.mp hpw).1 t ht
        unfold specFactorIdx
        have := factorCountLE_mono facTs hts
        omega
      have hcons : assignFactorLoop facTs facVals i (ts :: rest)
          = (advanceFactorIdx facTs ts i).bind (fun j =>
              (facVals.get? j).bind (fun v =>
                (assignFactorLoop facTs facVals j rest).map (fun vs => v :: vs))) := rfl
      rw [hcons, hadv]
      simp only [Option.some_bind]
      rw [hget]
      simp only [Option.some_bind]
      rw [hrest]
      simp only [Option.map_some', List.map_cons]

/-- **C3** (amended): for a sorted factor series (length ≥ 2) and sorted
bar dates, every bar dated strictly before the last factor date is
assigned the factor at `specFactorIdx` — the most recent factor with
effective date ≤ the bar's date, except that bars dated before the first
factor's date get the *first* factor; bars dated on/after the last
factor's date make the scan run past the end of the series (index error),
so they are excluded. -/
theorem claim_C3_factor_assignment :
    ∀ (facTs facVals tss : List ℚ) (hne : facTs ≠ []),
      facTs.Pairwise (· ≤ ·) → tss.Pairwise (· ≤ ·) →
      facVals.length = facTs.length → 2 ≤ facTs.length →
      (∀ ts ∈ tss, ts < facTs.getLast hne) →
      assignFactorValueToDay facTs facVals tss
        = some (specAssignFactors facTs facVals tss) := by
  intro facTs facVals tss hne hs hts hlen h2 hlast
  have hmall : ∀ ts ∈ tss, factorCountLE facTs ts < facTs.length := by
    intro ts htsm
    have hcle : factorCountLE facTs ts ≤ facTs.length := List.countP_le_length _
    rcases lt_or_eq_of_le hcle with h | h
    · exact h
    · exfalso
      have hallle : ∀ x ∈ facTs, x ≤ ts := by
        have := List.countP_eq_length.mp h
        intro x hx
        simpa using this x hx
      exact absurd (hallle (facTs.getLast hne) (List.getLast_mem hne))
        (not_le.mpr (hlast ts htsm))
  unfold assignFactorValueToDay specAssignFactors
  exact assignLoop_spec facTs facVals hs hlen tss hts hmall 0 (by omega)
    (fun ts _ => Nat.zero_le _)

/-- **C3** counterexample to the claim as stated: factors at dates
`[1, 2]` (values `[10, 20]`), one bar at date `2` — on the last factor's
effective date.  The most recent factor with date ≤ 2 is the one at date
2 (value 20), but the scan reads `fac_ts[2]` past the end of the series
and fails with an index error instead of assigning it. -/
theorem claim_C3_counterexample :
    assignFactorValueToDay [1, 2] [10, 20] [2] = none
    ∧ specAssignFactors [1, 2] [10, 20] [2] = [20] := by
  constructor
  · have h1 : advanceFactorIdx [1, 2] 2 0 = none := by
      unfold advanceFactorIdx
      norm_num
      unfold advanceFactorIdx
      rw [dif_neg (by norm_num)]
    simp [assignFactorValueToDay, assignFactorLoop, h1]
  · norm_num [specAssignFactors, specFactorIdx, factorCountLE, List.countP_cons]

/-- **C3** witness: the amended theorem applied to factors at dates
`[1, 3, 100]` (values `[2, 3, 4]`) and bars at dates `[0, 2, 3]`: the
result is the step-function assignment `[2, 2, 3]` (the first bar, which
predates every factor, receives the first factor's value). -/
theorem claim_C3_witness :
    List.Pairwise (· ≤ ·) ([1, 3, 100] : List ℚ)
    ∧ List.Pairwise (· ≤ ·) ([0, 2, 3] : List ℚ)
    ∧ ([2, 3, 4] : List ℚ).length = ([1, 3, 100] : List ℚ).length
    ∧ 2 ≤ ([1, 3, 100] : List ℚ).length
    ∧ (∀ ts ∈ ([0, 2, 3] : List ℚ), ts < ([1, 3, 100] : List ℚ).getLast (by simp))
    ∧ assignFactorValueToDay [1, 3, 100] [2, 3, 4] [0, 2, 3]
        = some (specAssignFactors [1, 3, 100] [2, 3, 4] [0, 2, 3]) := by
  have hp1 : List.Pairwise (· ≤ ·) ([1, 3, 100] : List ℚ) := by
    norm_num [List.pairwise_cons]
  have hp2 : List.Pairwise (· ≤ ·) ([0, 2, 3] : List ℚ) := by
    norm_num [List.pairwise_cons]
  have hlast : ∀ ts ∈ ([0, 2, 3] : List ℚ), ts < ([1, 3, 100] : List ℚ).getLast (by simp) := by
    intro ts hts
    fin_cases hts <;> norm_num
  exact ⟨hp1, hp2, by norm_num, by norm_num, hlast,
    claim_C3_factor_assignment [1, 3, 100] [2, 3, 4] [0, 2, 3] (by simp) hp1 hp2
      (by norm_num) (by norm_num) hlast⟩

/-! ### Strategy configuration and the sizing algorithm
(`tradepy/backtesting/strategy.py`) -/

/-- Modelled from the spec: the read-only strategy parameters shared via
`Context` (`tradepy/backtesting/context.py`, not in `src/`): stop-loss %,
take-profit %, max new opens per day, max position size fraction, trading
lot size.  `hasCloseInds` records whether the strategy declares any close
indicators (`close_indicators` nonempty). -/
structure Context where
  stopLoss : ℚ
  takeProfit : ℚ
  maxPositionOpens : ℕ
  maxPositionSize : ℚ
  tradingUnit : ℚ
  hasCloseInds : Bool

/-- Python float floor division `x // y`. -/
def ratFloorDiv (x y : ℚ) : ℚ := (⌊x / y⌋ : ℤ)

/-- One candidate of the sizing pool with its per-lot price
(`trade_price = close * trading_unit`) and its current lot count
(`trade_shares`). -/
structure Alloc where
  row : Row
  tradePrice : ℚ
  lots : ℚ
  deriving Repr, DecidableEq

/-- One insertion step of `sort_values("trade_price", ascending=False)`. -/
def insertByPriceDesc (a : Alloc) : List Alloc → List Alloc
  | [] => [a]
  | b :: t => if b.tradePrice < a.tradePrice then a :: b :: t
      else b :: insertByPriceDesc a t

/-- Sort the candidates by per-lot price, descending. -/
def sortByPriceDesc : List Alloc → List Alloc
  | [] => []
  | a :: t => insertByPriceDesc a (sortByPriceDesc t)

/-- The greedy leftover redistribution loop: walk the candidates in
descending price order, granting through the walrus-guarded
`remaining_budget // trade_price` extra lots. -/
def redistribute : ℚ → List Alloc → List Alloc × ℚ
  | rem, [] => ([], rem)
  | rem, a :: t =>
      if ratFloorDiv rem a.tradePrice = 0 then
        ((a :: (redistribute rem t).1), (redistribute rem t).2)
      else
        (({ a with lots := a.lots + ratFloorDiv rem a.tradePrice }
            :: (redistribute (rem - ratFloorDiv rem a.tradePrice * a.tradePrice) t).1),
          (redistribute (rem - ratFloorDiv rem a.tradePrice * a.tradePrice) t).2)

/-- The final list comprehension: one `Position` per candidate with a
positive lot count, in pool order, consuming one generated id each. -/
def buildPositions (unit : ℚ) (idGen : ℕ → String) (timestamp : String) :
    ℕ → List Alloc → List Position
  | _, [] => []
  | k, a :: t =>
      mkPosition timestamp a.row.code a.row.company a.row.closePrice
        (a.lots * unit) (idGen k) :: buildPositions unit idGen timestamp (k + 1) t

/-- The even initial allocation:
`trade_shares = budget / num_stocks // trade_price` per candidate. -/
def initialAllocs (unit : ℚ) (pool : List Row) (budget : ℚ) : List Alloc :=
  pool.map (fun r =>
    Alloc.mk r (r.closePrice * unit)
      (ratFloorDiv (budget / (pool.length : ℚ)) (r.closePrice * unit)))

/-- `remaining_budget = budget - (trade_price * trade_shares).sum()`. -/
def initialRemaining (unit : ℚ) (pool : List Row) (budget : ℚ) : ℚ :=
  budget - ((initialAllocs unit pool budget).map (fun a => a.tradePrice * a.lots)).sum

/-- `StrategyBase.generate_positions`. -/
def generatePositions (unit : ℚ) (idGen : ℕ → String) (startId : ℕ)
    (timestamp : String) (pool : List Row) (budget : ℚ) : List Position :=
  if pool = [] ∨ budget ≤ 0 then []
  else
    buildPositions unit idGen timestamp startId
      (((redistribute (initialRemaining unit pool budget)
          (sortByPriceDesc (initialAllocs unit pool budget))).1).filter
        (fun a => decide (0 < a.lots)))

/-- The pool after the (possibly random) downsampling: when the candidate
pool exceeds the max-opens limit, `bars_df.sample` draws from the whole
day frame. -/
def samplePool (ctx : Context) (sampler : List Row → ℕ → List ℕ)
    (frameRows buyRows : List Row) : List Row :=
  if ctx.maxPositionOpens < buyRows.length then
    (sampler frameRows ctx.maxPositionOpens).filterMap (fun ix => frameRows.get? ix)
  else buyRows

/-- The budget cap: shrink the total budget when the even per-candidate
allocation exceeds `max_position_size × total asset value`. -/
def cappedBudget (ctx : Context) (acct : Account) (poolLen : ℕ) (budget : ℚ) : ℚ :=
  if ctx.maxPositionSize * acct.getTotalAssetValue < ratFloorDiv budget (poolLen : ℚ) then
    (poolLen : ℚ) * (ctx.maxPositionSize * acct.getTotalAssetValue)
  else budget

/-- `StrategyBase.get_pool_and_budget`.  The downsampling when the pool
exceeds the max-opens limit is `bars_df.sample(...)` — a random sample of
the *whole day frame*, not of the candidate pool; the random choice is
threaded as `sampler`, which yields row indices into the frame. -/
def getPoolAndBudget (ctx : Context) (sampler : List Row → ℕ → List ℕ)
    (acct : Account) (frameRows : List Row) (buyRows : List Row) (budget : ℚ) :
    List Row × ℚ :=
  (samplePool ctx sampler frameRows buyRows,
    cappedBudget ctx acct (samplePool ctx sampler frameRows buyRows).length budget)

/-! ### Sizing algorithm lemmas -/

theorem insertByPriceDesc_perm (a : Alloc) (l : List Alloc) :
    List.Perm (insertByPriceDesc a l) (a :: l) := by
  induction l with
  | nil => rfl
  | cons b t ih =>
      unfold insertByPriceDesc
      split
      · rfl
      · exact (ih.cons b).trans (List.Perm.swap a b t)

theorem sortByPriceDesc_perm (l : List Alloc) : List.Perm (sortByPriceDesc l) l := by
  induction l with
  | nil => rfl
  | cons a t ih =>
      exact (insertByPriceDesc_perm a (sortByPriceDesc t)).trans (ih.cons a)

theorem mem_sortByPriceDesc {a : Alloc} {l : List Alloc} :
    a ∈ sortByPriceDesc l ↔ a ∈ l := (sortByPriceDesc_perm l).mem_iff

theorem ratFloorDiv_nonneg {x y : ℚ} (hx : 0 ≤ x) (hy : 0 < y) : 0 ≤ ratFloorDiv x y := by
  unfold ratFloorDiv
  have : (0:ℤ) ≤ ⌊x / y⌋ := Int.floor_nonneg.mpr (div_nonneg hx hy.le)
  exact_mod_cast this

theorem ratFloorDiv_mul_le {x y : ℚ} (_hx : 0 ≤ x) (hy : 0 < y) :
    ratFloorDiv x y * y ≤ x := by
  unfold ratFloorDiv
  have h1 : ((⌊x / y⌋ : ℤ) : ℚ) ≤ x / y := Int.floor_le _
  calc ((⌊x / y⌋ : ℤ) : ℚ) * y ≤ (x / y) * y := by
        exact mul_le_mul_of_nonneg_right h1 hy.le
    _ = x := div_mul_cancel₀ x (ne_of_gt hy)

theorem sub_ratFloorDiv_mul_lt {x y : ℚ} (hy : 0 < y) :
    x - ratFloorDiv x y * y < y := by
  unfold ratFloorDiv
  have h1 : x / y - 1 < ((⌊x / y⌋ : ℤ) : ℚ) := Int.sub_one_lt_floor _
  have h2 : x - ((⌊x / y⌋ : ℤ) : ℚ) * y = (x / y - ((⌊x / y⌋ : ℤ) : ℚ)) * y := by
    field_simp
    ring
  rw [h2]
  calc (x / y - ((⌊x / y⌋ : ℤ) : ℚ)) * y < 1 * y :=
        mul_lt_mul_of_pos_right (by linarith) hy
    _ = y := one_mul y

theorem ratFloorDiv_eq_zero_lt {x y : ℚ} (_hx : 0 ≤ x) (hy : 0 < y)
    (h : ratFloorDiv x y = 0) : x < y := by
  unfold ratFloorDiv at h
  have h0 : ⌊x / y⌋ = 0 := by exact_mod_cast h
  have h1 : x / y < 1 := by
    have := Int.lt_floor_add_one (x / y)
    rw [h0] at this
    simpa using this
  calc x = (x / y) * y := (div_mul_cancel₀ x (ne_of_gt hy)).symm
    _ < 1 * y := mul_lt_mul_of_pos_right h1 hy
    _ = y := one_mul y

theorem redistribute_spec (l : List Alloc) : ∀ rem : ℚ, 0 ≤ rem →
    (∀ a ∈ l, 0 < a.tradePrice) →
    0 ≤ (redistribute rem l).2
    ∧ (redistribute rem l).2 ≤ rem
    ∧ ((redistribute rem l).1.map (fun a => a.tradePrice * a.lots)).sum
        + (redistribute rem l).2
      = (l.map (fun a => a.tradePrice * a.lots)).sum + rem
    ∧ (∀ a ∈ l, (redistribute rem l).2 < a.tradePrice) := by
  induction l with
  | nil =>
      intro rem hrem _
      refine ⟨hrem, le_refl _, by simp [redistribute], ?_⟩
      intro a ha
      cases ha
  | cons a t ih =>
      intro rem hrem hpos
      have hp : 0 < a.tradePrice := hpos a (by simp)
      have hcons : redistribute rem (a :: t)
          = if ratFloorDiv rem a.tradePrice = 0 then
              ((a :: (redistribute rem t).1), (redistribute rem t).2)
            else
              (({ a with lots := a.lots + ratFloorDiv rem a.tradePrice }
                  :: (redistribute (rem - ratFloorDiv rem a.tradePrice * a.tradePrice) t).1),
                (redistribute (rem - ratFloorDiv rem a.tradePrice * a.tradePrice) t).2) := rfl
      by_cases hr : ratFloorDiv rem a.tradePrice = 0
      · rw [hcons, if_pos hr]
        dsimp only
        obtain ⟨ih1, ih2, ih3, ih4⟩ := ih rem hrem (fun b hb => hpos b (by simp [hb]))
        have hlt : rem < a.tradePrice := ratFloorDiv_eq_zero_lt hrem hp hr
        refine ⟨ih1, ih2, ?_, ?_⟩
        · simp only [List.map_cons, List.sum_cons]
          linarith
        · intro b hb
          rcases List.mem_cons.mp hb with hba | hbt
          · rw [hba]
            linarith
          · exact ih4 b hbt
      · rw [hcons, if_neg hr]
        dsimp only
        have hrpos : 0 ≤ ratFloorDiv rem a.tradePrice := ratFloorDiv_nonneg hrem hp
        have hle : ratFloorDiv rem a.tradePrice * a.tradePrice ≤ rem :=
          ratFloorDiv_mul_le hrem hp
        have hrem2 : 0 ≤ rem - ratFloorDiv rem a.tradePrice * a.tradePrice := by linarith
        have hlt2 : rem - ratFloorDiv rem a.tradePrice * a.tradePrice < a.tradePrice :=
          sub_ratFloorDiv_mul_lt hp
        obtain ⟨ih1, ih2, ih3, ih4⟩ := ih (rem - ratFloorDiv rem a.tradePrice * a.tradePrice)
          hrem2 (fun b hb => hpos b (by simp [hb]))
        have hX : 0 ≤ ratFloorDiv rem a.tradePrice * a.tradePrice :=
          mul_nonneg hrpos hp.le
        refine ⟨ih1, by linarith, ?_, ?_⟩
        · simp only [List.map_cons, List.sum_cons]
          linear_combination ih3
        · intro b hb
          rcases List.mem_cons.mp hb with hba | hbt
          · rw [hba]
            linarith
          · exact ih4 b hbt

theorem redistribute_lots_nonneg (l : List Alloc) : ∀ rem : ℚ, 0 ≤ rem →
    (∀ a ∈ l, 0 < a.tradePrice) → (∀ a ∈ l, 0 ≤ a.lots) →
    ∀ a ∈ (redistribute rem l).1, 0 ≤ a.lots := by
  induction l with
  | nil => intro rem _ _ _ a ha; simp [redistribute] at ha
  | cons a t ih =>
      intro rem hrem hpos hl b hb
      have hp : 0 < a.tradePrice := hpos a (by simp)
      have hcons : redistribute rem (a :: t)
          = if ratFloorDiv rem a.tradePrice = 0 then
              ((a :: (redistribute rem t).1), (redistribute rem t).2)
            else
              (({ a with lots := a.lots + ratFloorDiv rem a.tradePrice }
                  :: (redistribute (rem - ratFloorDiv rem a.tradePrice * a.tradePrice) t).1),
                (redistribute (rem - ratFloorDiv rem a.tradePrice * a.tradePrice) t).2) := rfl
      by_cases hr : ratFloorDiv rem a.tradePrice = 0
      · rw [hcons, if_pos hr] at hb
        dsimp only at hb
        rcases List.mem_cons.mp hb with hba | hbt
        · rw [hba]; exact hl a (by simp)
        · exact ih rem hrem (fun c hc => hpos c (by simp [hc]))
            (fun c hc => hl c (by simp [hc])) b hbt
      · rw [hcons, if_neg hr] at hb
        dsimp only at hb
        have hrpos : 0 ≤ ratFloorDiv rem a.tradePrice := ratFloorDiv_nonneg hrem hp
        have hle : ratFloorDiv rem a.tradePrice * a.tradePrice ≤ rem :=
          ratFloorDiv_mul_le hrem hp
        rcases List.mem_cons.mp hb with hba | hbt
        · rw [hba]
          have := hl a (by simp)
          show 0 ≤ a.lots + ratFloorDiv rem a.tradePrice
          linarith
        · exact ih (rem - ratFloorDiv rem a.tradePrice * a.tradePrice) (by linarith)
            (fun c hc => hpos c (by simp [hc])) (fun c hc => hl c (by simp [hc])) b hbt

theorem redistribute_preserves (P : Row → ℚ → Prop) (l : List Alloc) : ∀ rem : ℚ,
    (∀ a ∈ l, P a.row a.tradePrice) →
    ∀ a ∈ (redistribute rem l).1, P a.row a.tradePrice := by
  induction l with
  | nil => intro rem _ a ha; simp [redistribute] at ha
  | cons a t ih =>
      intro rem hP b hb
      have hcons : redistribute rem (a :: t)
          = if ratFloorDiv rem a.tradePrice = 0 then
              ((a :: (redistribute rem t).1), (redistribute rem t).2)
            else
              (({ a with lots := a.lots + ratFloorDiv rem a.tradePrice }
                  :: (redistribute (rem - ratFloorDiv rem a.tradePrice * a.tradePrice) t).1),
                (redistribute (rem - ratFloorDiv rem a.tradePrice * a.tradePrice) t).2) := rfl
      by_cases hr : ratFloorDiv rem a.tradePrice = 0
      · rw [hcons, if_pos hr] at hb
        dsimp only at hb
        rcases List.mem_cons.mp hb with hba | hbt
        · rw [hba]; exact hP a (by simp)
        · exact ih rem (fun c hc => hP c (by simp [hc])) b hbt
      · rw [hcons, if_neg hr] at hb
        dsimp only at hb
        rcases List.mem_cons.mp hb with hba | hbt
        · rw [hba]; exact hP a (by simp)
        · exact ih _ (fun c hc => hP c (by simp [hc])) b hbt

theorem filter_pos_lots_sum (l : List Alloc) (h0 : ∀ a ∈ l, 0 ≤ a.lots) :
    ((l.filter (fun a => decide (0 < a.lots))).map (fun a => a.tradePrice * a.lots)).sum
      = (l.map (fun a => a.tradePrice * a.lots)).sum := by
  induction l with
  | nil => simp
  | cons a t ih =>
      rw [List.filter_cons]
      by_cases ha : 0 < a.lots
      · rw [if_pos (by simpa using ha)]
        simp only [List.map_cons, List.sum_cons]
        rw [ih (fun c hc => h0 c (by simp [hc]))]
      · rw [if_neg (by simpa using ha)]
        have hz : a.lots = 0 := le_antisymm (not_lt.mp ha) (h0 a (by simp))
        simp only [List.map_cons, List.sum_cons]
        rw [ih (fun c hc => h0 c (by simp [hc])), hz]
        ring

theorem buildPositions_cost (unit : ℚ) (idGen : ℕ → String) (ts : String)
    (l : List Alloc) : ∀ k : ℕ,
    (buildPositions unit idGen ts k l).map (fun p => p.price * p.shares)
      = l.map (fun a => a.row.closePrice * (a.lots * unit)) := by
  induction l with
  | nil => intro k; rfl
  | cons a t ih =>
      intro k
      simp only [buildPositions, List.map_cons, mkPosition]
      rw [ih (k + 1)]

theorem mem_buildPositions (unit : ℚ) (idGen : ℕ → String) (ts : String)
    (l : List Alloc) : ∀ (k : ℕ) (p : Position), p ∈ buildPositions unit idGen ts k l →
    ∃ a ∈ l, p.shares = a.lots * unit := by
  induction l with
  | nil => intro k p hp; cases hp
  | cons a t ih =>
      intro k p hp
      rcases List.mem_cons.mp hp with hpa | hpt
      · exact ⟨a, by simp, by rw [hpa]; rfl⟩
      · obtain ⟨b, hb, hbs⟩ := ih (k + 1) p hpt
        exact ⟨b, by simp [hb], hbs⟩

/-- **C8**: for a nonempty candidate pool with positive close prices, a
positive budget and a positive lot size, the produced positions' total
cost never exceeds the budget; the cash left over after the greedy
redistribution (budget minus that total cost) is smaller than every
candidate's per-lot price (in particular the cheapest); and every produced
position has strictly positive shares (zero-share candidates are
dropped). -/
theorem claim_C8_sizing_conservation :
    ∀ (unit : ℚ) (idGen : ℕ → String) (startId : ℕ) (ts : String)
      (pool : List Row) (budget : ℚ),
      0 < budget → pool ≠ [] → (∀ r ∈ pool, 0 < r.closePrice) → 1 ≤ unit →
      (((generatePositions unit idGen startId ts pool budget).map
          (fun p => p.price * p.shares)).sum ≤ budget)
      ∧ (∀ r ∈ pool,
          budget - ((generatePositions unit idGen startId ts pool budget).map
            (fun p => p.price * p.shares)).sum < r.closePrice * unit)
      ∧ (∀ p ∈ generatePositions unit idGen startId ts pool budget, 0 < p.shares) := by
  intro unit idGen startId ts pool budget hb hne hclose hunit
  have hunit0 : (0:ℚ) < unit := by linarith
  have hno : ¬ (pool = [] ∨ budget ≤ 0) := by
    push_neg
    exact ⟨hne, by linarith⟩
  have hgen : generatePositions unit idGen startId ts pool budget
      = buildPositions unit idGen ts startId
        (((redistribute (initialRemaining unit pool budget)
            (sortByPriceDesc (initialAllocs unit pool budget))).1).filter
          (fun a => decide (0 < a.lots))) := by
    unfold generatePositions
    rw [if_neg hno]
  have hallocfacts : ∀ a ∈ initialAllocs unit pool budget,
      a.tradePrice = a.row.closePrice * unit ∧ 0 < a.tradePrice ∧ 0 ≤ a.lots ∧ a.row ∈ pool := by
    intro a ha
    obtain ⟨r, hr, hra⟩ := List.mem_map.mp ha
    have hrp : 0 < r.closePrice * unit := mul_pos (hclose r hr) hunit0
    refine ⟨by rw [← hra], by rw [← hra]; exact hrp, ?_, by rw [← hra]; exact hr⟩
    rw [← hra]
    show 0 ≤ ratFloorDiv (budget / (pool.length : ℚ)) (r.closePrice * unit)
    have hn : (0:ℚ) < (pool.length : ℚ) := by
      have : 0 < pool.length := List.length_pos.mpr hne
      exact_mod_cast this
    exact ratFloorDiv_nonneg (div_nonneg hb.le hn.le) hrp
  have hn : (0:ℚ) < (pool.length : ℚ) := by
    have : 0 < pool.length := List.length_pos.mpr hne
    exact_mod_cast this
  have hrem0 : 0 ≤ initialRemaining unit pool budget := by
    unfold initialRemaining
    have hperterm : ∀ x ∈ (initialAllocs unit pool budget).map
        (fun a => a.tradePrice * a.lots), x ≤ budget / (pool.length : ℚ) := by
      intro x hx
      obtain ⟨a, ha, hax⟩ := List.mem_map.mp hx
      obtain ⟨heq, hp, hl, _⟩ := hallocfacts a ha
      rw [← hax]
      obtain ⟨r, hr, hra⟩ := List.mem_map.mp ha
      have : a.lots = ratFloorDiv (budget / (pool.length : ℚ)) a.tradePrice := by
        rw [← hra]
      rw [this, mul_comm]
      exact ratFloorDiv_mul_le (div_nonneg hb.le hn.le) hp
    have hsum := List.sum_le_card_nsmul _ _ hperterm
    rw [List.length_map] at hsum
    have hlen : (initialAllocs unit pool budget).length = pool.length := by
      unfold initialAllocs
      rw [List.length_map]
    rw [hlen] at hsum
    have : (pool.length : ℚ) * (budget / (pool.length : ℚ)) = budget :=
      mul_div_cancel₀ budget (ne_of_gt hn)
    have hsum' : ((initialAllocs unit pool budget).map
        (fun a => a.tradePrice * a.lots)).sum ≤ budget := by
      calc _ ≤ pool.length • (budget / (pool.length : ℚ)) := hsum
        _ = (pool.length : ℚ) * (budget / (pool.length : ℚ)) := nsmul_eq_mul _ _
        _ = budget := this
    linarith
  have hsortfacts : ∀ a ∈ sortByPriceDesc (initialAllocs unit pool budget),
      0 < a.tradePrice :=
    fun a ha => (hallocfacts a (mem_sortByPriceDesc.mp ha)).2.1
  obtain ⟨hr1, hr2, hr3, hr4⟩ := redistribute_spec
    (sortByPriceDesc (initialAllocs unit pool budget))
    (initialRemaining unit pool budget) hrem0 hsortfacts
  have houtpos : ∀ a ∈ (redistribute (initialRemaining unit pool budget)
      (sortByPriceDesc (initialAllocs unit pool budget))).1,
      0 < a.tradePrice ∧ a.tradePrice = a.row.closePrice * unit := by
    have := redistribute_preserves
      (fun r tp => 0 < tp ∧ tp = r.closePrice * unit)
      (sortByPriceDesc (initialAllocs unit pool budget))
      (initialRemaining unit pool budget)
      (fun a ha => ⟨(hallocfacts a (mem_sortByPriceDesc.mp ha)).2.1,
        (hallocfacts a (mem_sortByPriceDesc.mp ha)).1⟩)
    exact this
  have houtlots : ∀ a ∈ (redistribute (initialRemaining unit pool budget)
      (sortByPriceDesc (initialAllocs unit pool budget))).1, 0 ≤ a.lots :=
    redistribute_lots_nonneg _ _ hrem0 hsortfacts
      (fun a ha => (hallocfacts a (mem_sortByPriceDesc.mp ha)).2.2.1)
  -- total produced cost = budget - final remaining
  have hsum_eq : ((generatePositions unit idGen startId ts pool budget).map
      (fun p => p.price * p.shares)).sum
      = budget - (redistribute (initialRemaining unit pool budget)
          (sortByPriceDesc (initialAllocs unit pool budget))).2 := by
    rw [hgen, buildPositions_cost]
    have hmapeq : ((((redistribute (initialRemaining unit pool budget)
        (sortByPriceDesc (initialAllocs unit pool budget))).1).filter
          (fun a => decide (0 < a.lots))).map
        (fun a => a.row.closePrice * (a.lots * unit))).sum
        = ((((redistribute (initialRemaining unit pool budget)
          (sortByPriceDesc (initialAllocs unit pool budget))).1).filter
            (fun a => decide (0 < a.lots))).map
          (fun a => a.tradePrice * a.lots)).sum := by
      congr 1
      apply List.map_congr_left
      intro a ha
      have hmem := List.mem_of_mem_filter ha
      rw [(houtpos a hmem).2]
      ring
    rw [hmapeq, filter_pos_lots_sum _ (fun a ha => houtlots a ha)]
    have hperm := (sortByPriceDesc_perm (initialAllocs unit pool budget)).map
      (fun a => a.tradePrice * a.lots)
    have hsort_sum : ((sortByPriceDesc (initialAllocs unit pool budget)).map
        (fun a => a.tradePrice * a.lots)).sum
        = ((initialAllocs unit pool budget).map (fun a => a.tradePrice * a.lots)).sum :=
      hperm.sum_eq
    have hrem_def : initialRemaining unit pool budget
        = budget - ((initialAllocs unit pool budget).map
            (fun a => a.tradePrice * a.lots)).sum := rfl
    linarith
  refine ⟨?_, ?_, ?_⟩
  · rw [hsum_eq]
    linarith
  · intro r hr
    rw [hsum_eq]
    have hmem : Alloc.mk r (r.closePrice * unit)
        (ratFloorDiv (budget / (pool.length : ℚ)) (r.closePrice * unit))
        ∈ initialAllocs unit pool budget := by
      unfold initialAllocs
      exact List.mem_map_of_mem _ hr
    have := hr4 _ (mem_sortByPriceDesc.mpr hmem)
    simpa using this
  · intro p hp
    rw [hgen] at hp
    obtain ⟨a, ha, has⟩ := mem_buildPositions _ _ _ _ _ p hp
    have hpos : 0 < a.lots := by
      have := List.of_mem_filter ha
      simpa using this
    rw [has]
    exact mul_pos hpos hunit0

/-- **C8** witness: pool of two candidates (close 10 and close 2, lot
size 100), budget 3000 — the theorem applied with every hypothesis
discharged. -/
theorem claim_C8_witness :
    (0:ℚ) < 3000
    ∧ ([Row.mk "X" "X" 10 10 10 10 true false,
        Row.mk "Y" "Y" 2 2 2 2 true false] : List Row) ≠ []
    ∧ (∀ r ∈ ([Row.mk "X" "X" 10 10 10 10 true false,
        Row.mk "Y" "Y" 2 2 2 2 true false] : List Row), 0 < r.closePrice)
    ∧ (1:ℚ) ≤ 100
    ∧ ((generatePositions 100 (fun _ => "p") 0 "d"
        [Row.mk "X" "X" 10 10 10 10 true false,
          Row.mk "Y" "Y" 2 2 2 2 true false] 3000).map
        (fun p => p.price * p.shares)).sum ≤ 3000
    ∧ (∀ r ∈ ([Row.mk "X" "X" 10 10 10 10 true false,
        Row.mk "Y" "Y" 2 2 2 2 true false] : List Row),
        (3000:ℚ) - ((generatePositions 100 (fun _ => "p") 0 "d"
          [Row.mk "X" "X" 10 10 10 10 true false,
            Row.mk "Y" "Y" 2 2 2 2 true false] 3000).map
          (fun p => p.price * p.shares)).sum < r.closePrice * 100)
    ∧ (∀ p ∈ generatePositions 100 (fun _ => "p") 0 "d"
        [Row.mk "X" "X" 10 10 10 10 true false,
          Row.mk "Y" "Y" 2 2 2 2 true false] 3000, 0 < p.shares) := by
  have hc : ∀ r ∈ ([Row.mk "X" "X" 10 10 10 10 true false,
      Row.mk "Y" "Y" 2 2 2 2 true false] : List Row), 0 < r.closePrice := by
    intro r hr
    fin_cases hr <;> norm_num
  have h := claim_C8_sizing_conservation 100 (fun _ => "p") 0 "d"
    [Row.mk "X" "X" 10 10 10 10 true false, Row.mk "Y" "Y" 2 2 2 2 true false] 3000
    (by norm_num) (by simp) hc (by norm_num)
  exact ⟨by norm_num, by simp, hc, by norm_num, h.1, h.2.1, h.2.2⟩

/-- **C5**: the downsampling step samples from the whole day frame
(`bars_df.sample`), not from the buy-candidate pool, so a symbol with no
buy signal can enter the downsampled pool.  With frame rows A, B, C (A
and B carrying buy signals), max-opens 1 and the sample drawing row index
2, the resulting pool is `[C]` — of the configured size, but containing a
row outside the original candidate pool whose buy signal is `false`. -/
theorem claim_C5_sample_from_frame :
    (getPoolAndBudget (Context.mk 5 10 1 (1/4) 100 false) (fun _ _ => [2])
        (Account.mk 0 0 1000 [])
        [Row.mk "000001" "A" 1 1 1 1 true false, Row.mk "000002" "B" 1 1 1 1 true false,
          Row.mk "000003" "C" 1 1 1 1 false false]
        [Row.mk "000001" "A" 1 1 1 1 true false, Row.mk "000002" "B" 1 1 1 1 true false]
        1000).1
      = [Row.mk "000003" "C" 1 1 1 1 false false]
    ∧ (Row.mk "000003" "C" 1 1 1 1 false false)
        ∉ [Row.mk "000001" "A" 1 1 1 1 true false, Row.mk "000002" "B" 1 1 1 1 true false]
    ∧ (Row.mk "000003" "C" 1 1 1 1 false false).buySig = false
    ∧ ([Row.mk "000003" "C" 1 1 1 1 false false] : List Row).length
        = (Context.mk 5 10 1 (1/4) 100 false).maxPositionOpens := by
  refine ⟨rfl, ?_, rfl, rfl⟩
  simp [Row.mk.injEq]

/-! ### The indicator pipeline (`Backtester._adjust_prices`,
`Backtester._adjust_then_compute`, `Backtester.get_indicators_df`)

Dates are modelled as rational ordinals; the strategy's pre-processing,
indicator computation and post-processing are abstract total functions on
the symbol's bars. -/

/-- One raw bar of a symbol's frame. -/
structure Bar where
  timestamp : ℚ
  openPrice : ℚ
  closePrice : ℚ
  high : ℚ
  low : ℚ
  chg : ℚ
  pctChg : ℚ
  deriving Repr, DecidableEq

/-- One insertion step of `sort_values("timestamp")` (ascending, stable). -/
def insertByTs (b : Bar) : List Bar → List Bar
  | [] => [b]
  | c :: t => if c.timestamp ≤ b.timestamp then c :: insertByTs b t else b :: c :: t

/-- Sort a symbol's bars ascending by date. -/
def sortBarsByTs : List Bar → List Bar
  | [] => []
  | b :: t => insertByTs b (sortBarsByTs t)

/-- Recompute `chg = close - close.shift(1)` (0 for the first row) and
`pct_chg = 100 * chg / close.shift(1)` (0 when undefined) after scaling.
In ℚ a division by a zero previous close yields 0. -/
def recomputeChg : Option ℚ → List Bar → List Bar
  | _, [] => []
  | none, b :: t =>
      { b with chg := 0, pctChg := 0 } :: recomputeChg (some b.closePrice) t
  | some prev, b :: t =>
      { b with chg := b.closePrice - prev,
               pctChg := 100 * (b.closePrice - prev) / prev }
        :: recomputeChg (some b.closePrice) t

/-- `bars_df.round(2)` on the numeric columns. -/
def roundBar (b : Bar) : Bar :=
  { b with openPrice := round2 b.openPrice, closePrice := round2 b.closePrice,
           high := round2 b.high, low := round2 b.low,
           chg := round2 b.chg, pctChg := round2 b.pctChg }

/-- `Backtester._adjust_prices`: look up each bar's factor with the merge
scan (an index error propagates), scale OHLC, recompute chg / pct_chg and
round everything to 2 decimals. -/
def adjustPrices (facTs facVals : List ℚ) (bars : List Bar) : Option (List Bar) :=
  match assignFactorValueToDay facTs facVals (bars.map Bar.timestamp) with
  | none => none
  | some factors =>
      let scaled := (bars.zip factors).map (fun bf =>
        { bf.1 with openPrice := bf.1.openPrice * bf.2,
                    closePrice := bf.1.closePrice * bf.2,
                    high := bf.1.high * bf.2, low := bf.1.low * bf.2 })
      some ((recomputeChg none scaled).map roundBar)

/-- `self.adjust_factors_df.loc[code]`: the symbol's (sorted)
date/factor series, or a `KeyError` (`none`). -/
def lookupFactors (table : List (String × List ℚ × List ℚ)) (code : String) :
    Option (List ℚ × List ℚ) :=
  (table.find? (fun e => e.1 == code)).map (fun e => e.2)

/-- `Backtester._adjust_then_compute` for one symbol.  `none` models an
uncaught exception (the merge scan's index error); `some []` is the
"drop this symbol's rows" downgrade. -/
def adjustThenCompute (preProc postProc computeInds : List Bar → List Bar)
    (factorTable : Option (List (String × List ℚ × List ℚ)))
    (code : String) (bars0 : List Bar) : Option (List Bar) :=
  let bars1 := preProc (sortBarsByTs bars0)
  if bars1 = [] then some bars1
  else
    match factorTable with
    | none => some (postProc (computeInds bars1))
    | some table =>
        match lookupFactors table code with
        | none => some []
        | some fv =>
            match adjustPrices fv.1 fv.2 bars1 with
            | none => none
            | some adjusted =>
                if adjusted.any (fun b => decide (21 < |b.pctChg|)) then some []
                else some (postProc (computeInds adjusted))

/-- `Backtester.get_indicators_df`: per-symbol processing concatenated;
an uncaught per-symbol exception aborts the whole pipeline. -/
def getIndicatorsDf (preProc postProc computeInds : List Bar → List Bar)
    (factorTable : Option (List (String × List ℚ × List ℚ)))
    (symbols : List (String × List Bar)) : Option (List Bar) :=
  symbols.foldr (fun sym acc =>
    match adjustThenCompute preProc postProc computeInds factorTable sym.1 sym.2, acc with
    | some rows, some rest => some (rows ++ rest)
    | _, _ => none) (some [])

theorem getIndicatorsDf_cons (preProc postProc computeInds : List Bar → List Bar)
    (factorTable : Option (List (String × List ℚ × List ℚ)))
    (sym : String × List Bar) (symbols : List (String × List Bar)) :
    getIndicatorsDf preProc postProc computeInds factorTable (sym :: symbols)
      = match adjustThenCompute preProc postProc computeInds factorTable sym.1 sym.2,
          getIndicatorsDf preProc postProc computeInds factorTable symbols with
        | some rows, some rest => some (rows ++ rest)
        | _, _ => none := rfl

/-- **C7**: with a factor table configured, a symbol with no factor entry,
or whose adjusted bars contain a |pct_chg| above 21, contributes zero rows
(`some []`), and the whole pipeline's result on any symbol list containing
it equals the result without it — the fault is isolated and never aborts
the other symbols' processing. -/
theorem claim_C7_fault_isolation :
    ∀ (preProc postProc computeInds : List Bar → List Bar)
      (table : List (String × List ℚ × List ℚ)) (code : String) (bars : List Bar),
      (lookupFactors table code = none
        ∨ ∃ fv adjusted, lookupFactors table code = some fv
            ∧ adjustPrices fv.1 fv.2 (preProc (sortBarsByTs bars)) = some adjusted
            ∧ adjusted.any (fun b => decide (21 < |b.pctChg|)) = true) →
      adjustThenCompute preProc postProc computeInds (some table) code bars = some []
      ∧ ∀ (l1 l2 : List (String × List Bar)),
          getIndicatorsDf preProc postProc computeInds (some table)
            (l1 ++ (code, bars) :: l2)
          = getIndicatorsDf preProc postProc computeInds (some table) (l1 ++ l2) := by
  intro preProc postProc computeInds table code bars hfault
  have hzero : adjustThenCompute preProc postProc computeInds (some table) code bars
      = some [] := by
    unfold adjustThenCompute
    by_cases hempty : preProc (sortBarsByTs bars) = []
    · rw [if_pos hempty, hempty]
    · rw [if_neg hempty]
      dsimp only
      rcases hfault with hnone | ⟨fv, adjusted, hfv, hadj, hgt⟩
      · rw [hnone]
      · rw [hfv]
        dsimp only
        rw [hadj]
        dsimp only
        rw [if_pos hgt]
  refine ⟨hzero, ?_⟩
  intro l1 l2
  induction l1 with
  | nil =>
      rw [List.nil_append, List.nil_append, getIndicatorsDf_cons, hzero]
      cases getIndicatorsDf preProc postProc computeInds (some table) l2 <;> rfl
  | cons a l1 ih =>
      rw [List.cons_append, List.cons_append, getIndicatorsDf_cons, getIndicatorsDf_cons, ih]

/-- **C7** witness: a symbol absent from an empty factor table, in a
pipeline together with a healthy symbol (identity strategy stages) — the
faulty symbol yields zero rows and its presence does not change the
pipeline's output. -/
theorem claim_C7_witness :
    lookupFactors [] "000001" = none
    ∧ adjustThenCompute id id id (some []) "000001"
        [Bar.mk 1 10 10 10 10 0 0] = some []
    ∧ getIndicatorsDf id id id (some [])
        ([] ++ ("000001", [Bar.mk 1 10 10 10 10 0 0]) :: [("000002", [])])
      = getIndicatorsDf id id id (some []) ([] ++ [("000002", [])]) := by
  have hmain := claim_C7_fault_isolation id id id [] "000001"
    [Bar.mk 1 10 10 10 10 0 0] (Or.inl rfl)
  exact ⟨rfl, hmain.1, hmain.2 [] [("000002", [])]⟩

/-! ### The day-by-day trading simulation (`Backtester.trade`)

The two sources of per-run nondeterminism are threaded explicitly: the
position id generator (`uuid.uuid4` in `Position.__post_init__`) as
`idGen` over a running counter, and the downsampling draw
(`bars_df.sample`) as `sampler`. -/

/-- One trade-log entry (`TradeLog` in `account.py`). -/
structure TradeLog where
  timestamp : String
  tag : String
  posId : String
  code : String
  shares : ℚ
  price : ℚ
  totalValue : ℚ
  chg : Option ℚ
  pctChg : Option ℚ
  totalReturn : Option ℚ
  deriving Repr, DecidableEq

/-- One capital-log entry (`CapitalsLog` in `account.py`). -/
structure CapitalLog where
  timestamp : String
  positionsValue : ℚ
  freeCash : ℚ
  deriving Repr, DecidableEq

/-- The trade book: append-only trade logs and capital snapshots. -/
structure TradeBook where
  tradeLogs : List TradeLog
  capitalLogs : List CapitalLog
  deriving Repr, DecidableEq

/-- The simulator's running state: the ledger, the book, and the number of
position ids consumed so far. -/
structure SimState where
  account : Account
  book : TradeBook
  counter : ℕ
  deriving Repr, DecidableEq

/-- One day of the enriched dataset. -/
structure DayFrame where
  timestamp : String
  rows : List Row
  deriving Repr, DecidableEq

/-- `sub_df.loc[(timestamp, code)]`: the day's row for a symbol. -/
def findRow (rows : List Row) (code : String) : Option Row :=
  rows.find? (fun r => r.code == code)

/-- Python truthiness of an optional float: `None` and `0.0` are falsy
(the walrus-guarded `if price := ...:` exit checks). -/
def truthy : Option ℚ → Option ℚ
  | none => none
  | some p => if p = 0 then none else some p

/-- `Backtester.get_close_signals`: empty without declared close
indicators or current positions; otherwise the held symbols whose row
satisfies the close predicate. -/
def getCloseSignals (ctx : Context) (a : Account) (rows : List Row) : List String :=
  if !ctx.hasCloseInds then []
  else if a.holdings.isEmpty then []
  else ((rows.filter (fun r => (holdingsCodes a.holdings).contains r.code && r.closeSig)).map
    Row.code)

/-- The per-position exit resolution of the sell loop: take-profit, else
stop-loss, else strategy close signal; positions without a row in the
day's frame are skipped.  Returns each exited position already closed at
its realized price, with its trade-action tag. -/
def resolveExits (ctx : Context) (closeSignals : List String) (rows : List Row)
    (holdings : List Position) : List (Position × String) :=
  holdings.filterMap (fun p =>
    match findRow rows p.code with
    | none => none
    | some bar =>
        match truthy (shouldTakeProfit ctx.takeProfit bar p) with
        | some price => some (p.closeAt price, "止盈")
        | none =>
            match truthy (shouldStopLoss ctx.stopLoss bar p) with
            | some price => some (p.closeAt price, "止损")
            | none =>
                if closeSignals.contains p.code then some (p.closeAt bar.closePrice, "平仓")
                else none)

/-- `TradeBook.__sell`'s log entry. -/
def mkSellLog (timestamp : String) (tag : String) (p : Position) : TradeLog :=
  { timestamp := timestamp, tag := tag, posId := p.id, code := p.code,
    shares := p.shares, price := p.latestPrice,
    totalValue := p.latestPrice * p.shares,
    chg := some (p.chgAt p.latestPrice), pctChg := some (p.pctChgAt p.latestPrice),
    totalReturn := some (p.price * p.pctChgAt p.latestPrice * (1/100) * p.shares) }

/-- `TradeBook.buy`'s log entry. -/
def mkBuyLog (timestamp : String) (p : Position) : TradeLog :=
  { timestamp := timestamp, tag := "开仓", posId := p.id, code := p.code,
    shares := p.shares, price := p.price, totalValue := p.price * p.shares,
    chg := none, pctChg := none, totalReturn := none }

/-- `Backtester.get_buy_signals`: rows whose symbol is not currently held
and whose buy predicate fires. -/
def getBuySignals (a : Account) (rows : List Row) : List Row :=
  rows.filter (fun r => !(holdingsCodes a.holdings).contains r.code && r.buySig)

/-- Step 1: the mark-to-market account. -/
def dayTickedAccount (st : SimState) (frame : DayFrame) : Account :=
  st.account.tick (fun c => (findRow frame.rows c).map Row.closePrice)

/-- Step 2: the day's close-signal symbols. -/
def dayCloseSignals (ctx : Context) (st : SimState) (frame : DayFrame) : List String :=
  getCloseSignals ctx (dayTickedAccount st frame) frame.rows

/-- Step 3: the day's resolved exits. -/
def dayExits (ctx : Context) (st : SimState) (frame : DayFrame) : List (Position × String) :=
  resolveExits ctx (dayCloseSignals ctx st frame) frame.rows (dayTickedAccount st frame).holdings

/-- Step 4: the account after the batched sell. -/
def dayAccountAfterSells (ctx : Context) (st : SimState) (frame : DayFrame) : Account :=
  if (dayExits ctx st frame).isEmpty then dayTickedAccount st frame
  else (dayTickedAccount st frame).sell ((dayExits ctx st frame).map (fun e => e.1))

/-- Step 5: the day's buy-signal rows (against post-sell holdings). -/
def dayBuySignals (ctx : Context) (st : SimState) (frame : DayFrame) : List Row :=
  getBuySignals (dayAccountAfterSells ctx st frame) frame.rows

/-- Step 6's new positions. -/
def dayBuys (ctx : Context) (sampler : List Row → ℕ → List ℕ) (idGen : ℕ → String)
    (st : SimState) (frame : DayFrame) : List Position :=
  generatePositions ctx.tradingUnit idGen st.counter frame.timestamp
    (getPoolAndBudget ctx sampler (dayAccountAfterSells ctx st frame) frame.rows
      (dayBuySignals ctx st frame) (dayAccountAfterSells ctx st frame).cashAmount).1
    (getPoolAndBudget ctx sampler (dayAccountAfterSells ctx st frame) frame.rows
      (dayBuySignals ctx st frame) (dayAccountAfterSells ctx st frame).cashAmount).2

/-- One day of `Backtester.trade`. -/
def dayStep (ctx : Context) (sampler : List Row → ℕ → List ℕ) (idGen : ℕ → String)
    (st : SimState) (frame : DayFrame) : SimState :=
  let exits := dayExits ctx st frame
  let a2 := dayAccountAfterSells ctx st frame
  let buySignals := dayBuySignals ctx st frame
  let buys := dayBuys ctx sampler idGen st frame
  let a3 := if buySignals.isEmpty then a2 else a2.buy buys
  let sellLogs := exits.map (fun e => mkSellLog frame.timestamp e.2 e.1)
  let buyLogs := if buySignals.isEmpty then [] else buys.map (mkBuyLog frame.timestamp)
  let capLogs := if !buySignals.isEmpty || !(dayCloseSignals ctx st frame).isEmpty then
      [CapitalLog.mk frame.timestamp (holdingsWorth a3.holdings) a3.cashAmount]
    else []
  { account := a3,
    book := { tradeLogs := st.book.tradeLogs ++ sellLogs ++ buyLogs,
              capitalLogs := st.book.capitalLogs ++ capLogs },
    counter := if buySignals.isEmpty then st.counter else st.counter + buys.length }

/-- `Backtester.trade`: fold the day step over the chronologically ordered
day frames. -/
def trade (ctx : Context) (sampler : List Row → ℕ → List ℕ) (idGen : ℕ → String)
    (st0 : SimState) (days : List DayFrame) : SimState :=
  days.foldl (dayStep ctx sampler idGen) st0

theorem dayStep_account (ctx : Context) (sampler : List Row → ℕ → List ℕ)
    (idGen : ℕ → String) (st : SimState) (frame : DayFrame) :
    (dayStep ctx sampler idGen st frame).account
      = (if (dayBuySignals ctx st frame).isEmpty then dayAccountAfterSells ctx st frame
        else (dayAccountAfterSells ctx st frame).buy (dayBuys ctx sampler idGen st frame)) :=
  rfl

theorem dayStep_tradeLogs (ctx : Context) (sampler : List Row → ℕ → List ℕ)
    (idGen : ℕ → String) (st : SimState) (frame : DayFrame) :
    (dayStep ctx sampler idGen st frame).book.tradeLogs
      = st.book.tradeLogs
        ++ (dayExits ctx st frame).map (fun e => mkSellLog frame.timestamp e.2 e.1)
        ++ (if (dayBuySignals ctx st frame).isEmpty then []
          else (dayBuys ctx sampler idGen st frame).map (mkBuyLog frame.timestamp)) :=
  rfl

theorem dayStep_capitalLogs (ctx : Context) (sampler : List Row → ℕ → List ℕ)
    (idGen : ℕ → String) (st : SimState) (frame : DayFrame) :
    (dayStep ctx sampler idGen st frame).book.capitalLogs
      = st.book.capitalLogs
        ++ (if !(dayBuySignals ctx st frame).isEmpty
              || !(dayCloseSignals ctx st frame).isEmpty then
          [CapitalLog.mk frame.timestamp
            (holdingsWorth (dayStep ctx sampler idGen st frame).account.holdings)
            (dayStep ctx sampler idGen st frame).account.cashAmount]
        else []) :=
  rfl

/-- **C4** (amended): a day's capital-log snapshot is appended exactly when
the day's close-*signal* set or buy-*signal* set is nonempty — the code
keys the snapshot on `buy_indices or close_indices`, not on realized
trading activity.  A take-profit or stop-loss exit with no close signal
and no buy signal is therefore *not* snapshotted, and a day with buy
signals that produce no position still is. -/
theorem claim_C4_capital_log_keyed_on_signals :
    ∀ (ctx : Context) (sampler : List Row → ℕ → List ℕ) (idGen : ℕ → String)
      (st : SimState) (frame : DayFrame),
      ((dayStep ctx sampler idGen st frame).book.capitalLogs
        = st.book.capitalLogs
          ++ (if dayBuySignals ctx st frame ≠ [] ∨ dayCloseSignals ctx st frame ≠ [] then
            [CapitalLog.mk frame.timestamp
              (holdingsWorth (dayStep ctx sampler idGen st frame).account.holdings)
              (dayStep ctx sampler idGen st frame).account.cashAmount]
          else []))
      ∧ ((dayStep ctx sampler idGen st frame).book.capitalLogs ≠ st.book.capitalLogs
        ↔ (dayBuySignals ctx st frame ≠ [] ∨ dayCloseSignals ctx st frame ≠ [])) := by
  intro ctx sampler idGen st frame
  have hcond : ((!(dayBuySignals ctx st frame).isEmpty
      || !(dayCloseSignals ctx st frame).isEmpty) = true)
      ↔ (dayBuySignals ctx st frame ≠ [] ∨ dayCloseSignals ctx st frame ≠ []) := by
    simp [List.isEmpty_iff]
  have hmain : (dayStep ctx sampler idGen st frame).book.capitalLogs
      = st.book.capitalLogs
        ++ (if dayBuySignals ctx st frame ≠ [] ∨ dayCloseSignals ctx st frame ≠ [] then
          [CapitalLog.mk frame.timestamp
            (holdingsWorth (dayStep ctx sampler idGen st frame).account.holdings)
            (dayStep ctx sampler idGen st frame).account.cashAmount]
        else []) := by
    rw [dayStep_capitalLogs]
    congr 1
    exact if_congr hcond rfl rfl
  refine ⟨hmain, ?_⟩
  constructor
  · intro hne
    by_contra hno
    rw [hmain, if_neg hno, List.append_nil] at hne
    exact hne rfl
  · intro hsig
    rw [hmain, if_pos hsig]
    intro heq
    have := congrArg List.length heq
    simp at this

/-- **C4** counterexample to the claim as stated: a held position (entry
10.00, marked 11.00 at the close) exits via take-profit at 11.20 on a day
with no close indicators and no buy signals.  The exit is real — the
position leaves the holdings and a take-profit trade-log entry is
appended — yet no capital-log snapshot is written. -/
theorem claim_C4_counterexample :
    (dayStep (Context.mk 5 10 10 1 100 false) (fun _ _ => []) (fun _ => "x")
        (SimState.mk (Account.mk 0 0 0 [Position.mk "d0" "000001" "A" 10 100 10 "p"])
          (TradeBook.mk [] []) 0)
        (DayFrame.mk "d1" [Row.mk "000001" "A" 11.2 11 11.5 9.8 false false])).book.capitalLogs
      = []
    ∧ ((dayStep (Context.mk 5 10 10 1 100 false) (fun _ _ => []) (fun _ => "x")
        (SimState.mk (Account.mk 0 0 0 [Position.mk "d0" "000001" "A" 10 100 10 "p"])
          (TradeBook.mk [] []) 0)
        (DayFrame.mk "d1" [Row.mk "000001" "A" 11.2 11 11.5 9.8 false false])).book.tradeLogs.map
      TradeLog.tag) = ["止盈"]
    ∧ (dayStep (Context.mk 5 10 10 1 100 false) (fun _ _ => []) (fun _ => "x")
        (SimState.mk (Account.mk 0 0 0 [Position.mk "d0" "000001" "A" 10 100 10 "p"])
          (TradeBook.mk [] []) 0)
        (DayFrame.mk "d1" [Row.mk "000001" "A" 11.2 11 11.5 9.8 false false])).account.holdings
      = [] := by
  have htick : dayTickedAccount
      (SimState.mk (Account.mk 0 0 0 [Position.mk "d0" "000001" "A" 10 100 10 "p"])
        (TradeBook.mk [] []) 0)
      (DayFrame.mk "d1" [Row.mk "000001" "A" 11.2 11 11.5 9.8 false false])
      = Account.mk 0 0 0 [Position.mk "d0" "000001" "A" 10 100 11 "p"] := by
    norm_num [dayTickedAccount, Account.tick, holdingsTick, findRow, List.find?,
      Position.updatePrice]
  have hclose : dayCloseSignals (Context.mk 5 10 10 1 100 false)
      (SimState.mk (Account.mk 0 0 0 [Position.mk "d0" "000001" "A" 10 100 10 "p"])
        (TradeBook.mk [] []) 0)
      (DayFrame.mk "d1" [Row.mk "000001" "A" 11.2 11 11.5 9.8 false false]) = [] := by
    norm_num [dayCloseSignals, getCloseSignals]
  have hexit : dayExits (Context.mk 5 10 10 1 100 false)
      (SimState.mk (Account.mk 0 0 0 [Position.mk "d0" "000001" "A" 10 100 10 "p"])
        (TradeBook.mk [] []) 0)
      (DayFrame.mk "d1" [Row.mk "000001" "A" 11.2 11 11.5 9.8 false false])
      = [(Position.mk "d0" "000001" "A" 10 100 11.2 "p", "止盈")] := by
    rw [dayExits, hclose, htick]
    norm_num [resolveExits, findRow, List.find?, List.filterMap, shouldTakeProfit,
      calcPctChg, round2, truthy, Position.closeAt]
  have ha2 : dayAccountAfterSells (Context.mk 5 10 10 1 100 false)
      (SimState.mk (Account.mk 0 0 0 [Position.mk "d0" "000001" "A" 10 100 10 "p"])
        (TradeBook.mk [] []) 0)
      (DayFrame.mk "d1" [Row.mk "000001" "A" 11.2 11 11.5 9.8 false false])
      = Account.mk 0 0 1120 [] := by
    rw [dayAccountAfterSells, hexit, htick]
    norm_num [Account.sell, sellProceedsTotal, Position.totalValueAt, round2,
      holdingsSell, removeByCode, Account.takeSellCommissions, List.filter]
  have hbuy : dayBuySignals (Context.mk 5 10 10 1 100 false)
      (SimState.mk (Account.mk 0 0 0 [Position.mk "d0" "000001" "A" 10 100 10 "p"])
        (TradeBook.mk [] []) 0)
      (DayFrame.mk "d1" [Row.mk "000001" "A" 11.2 11 11.5 9.8 false false]) = [] := by
    rw [dayBuySignals, ha2]
    norm_num [getBuySignals, List.filter, holdingsCodes]
  refine ⟨?_, ?_, ?_⟩
  · rw [dayStep_capitalLogs, hbuy, hclose]
    simp
  · rw [dayStep_tradeLogs, hbuy, hexit]
    simp [mkSellLog]
  · rw [dayStep_account, hbuy, ha2]
    rfl

/-! ### C6: positions absent from the day's frame -/

theorem mem_tick_of_missing (a : Account) (lookup : String → Option ℚ) (p : Position)
    (hp : p ∈ a.holdings) (hmiss : lookup p.code = none) :
    p ∈ (a.tick lookup).holdings := by
  unfold Account.tick
  split
  · exact hp
  · show p ∈ holdingsTick a.holdings lookup
    unfold holdingsTick
    have hfix : (fun q => match lookup q.code with
        | some pr => q.updatePrice pr
        | none => q) p = p := by
      show (match lookup p.code with
        | some pr => p.updatePrice pr
        | none => p) = p
      rw [hmiss]
    rw [← hfix]
    exact List.mem_map_of_mem _ hp

theorem mem_holdingsSell_preserved (ps : List Position) : ∀ (h : List Position) (p : Position),
    p ∈ h → (∀ q ∈ ps, q.code ≠ p.code) → p ∈ holdingsSell h ps := by
  induction ps with
  | nil => intro h p hp _; simpa [holdingsSell] using hp
  | cons q t ih =>
      intro h p hp hne
      have hstep : holdingsSell h (q :: t) = holdingsSell (removeByCode h q.code) t := by
        simp [holdingsSell]
      rw [hstep]
      exact ih _ p (mem_removeByCode h q.code p hp
          (fun hc => hne q (by simp) hc.symm))
        (fun r hr => hne r (by simp [hr]))

theorem resolveExits_row_present (ctx : Context) (cs : List String) (rows : List Row)
    (holdings : List Position) :
    ∀ e ∈ resolveExits ctx cs rows holdings, findRow rows e.1.code ≠ none := by
  intro e he
  unfold resolveExits at he
  obtain ⟨q, hq, hqe⟩ := List.mem_filterMap.mp he
  cases hfind : findRow rows q.code with
  | none => rw [hfind] at hqe; cases hqe
  | some bar =>
      rw [hfind] at hqe
      dsimp only at hqe
      have hcode : e.1.code = q.code := by
        cases htp : truthy (shouldTakeProfit ctx.takeProfit bar q) with
        | some price =>
            rw [htp] at hqe
            dsimp only at hqe
            rw [← Option.some_inj.mp hqe]
            rfl
        | none =>
            rw [htp] at hqe
            dsimp only at hqe
            cases hsl : truthy (shouldStopLoss ctx.stopLoss bar q) with
            | some price =>
                rw [hsl] at hqe
                dsimp only at hqe
                rw [← Option.some_inj.mp hqe]
                rfl
            | none =>
                rw [hsl] at hqe
                dsimp only at hqe
                split at hqe
                · rw [← Option.some_inj.mp hqe]
                  rfl
                · cases hqe
      rw [hcode, hfind]
      intro hcon
      cases hcon

theorem mem_buildPositions_code (unit : ℚ) (idGen : ℕ → String) (ts : String)
    (l : List Alloc) : ∀ (k : ℕ) (p : Position), p ∈ buildPositions unit idGen ts k l →
    ∃ a ∈ l, p.code = a.row.code := by
  induction l with
  | nil => intro k p hp; cases hp
  | cons a t ih =>
      intro k p hp
      rcases List.mem_cons.mp hp with hpa | hpt
      · exact ⟨a, by simp, by rw [hpa]; rfl⟩
      · obtain ⟨b, hb, hbs⟩ := ih (k + 1) p hpt
        exact ⟨b, by simp [hb], hbs⟩

theorem getPoolAndBudget_pool_sub (ctx : Context) (sampler : List Row → ℕ → List ℕ)
    (a : Account) (rows buyRows : List Row) (b : ℚ)
    (hsub : ∀ r ∈ buyRows, r ∈ rows) :
    ∀ r ∈ (getPoolAndBudget ctx sampler a rows buyRows b).1, r ∈ rows := by
  intro r hr
  unfold getPoolAndBudget samplePool at hr
  dsimp only at hr
  split at hr
  · obtain ⟨ix, _, hix⟩ := List.mem_filterMap.mp hr
    exact List.get?_mem hix
  · exact hsub r hr

theorem dayBuys_code_mem_rows (ctx : Context) (sampler : List Row → ℕ → List ℕ)
    (idGen : ℕ → String) (st : SimState) (frame : DayFrame) :
    ∀ q ∈ dayBuys ctx sampler idGen st frame, ∃ r ∈ frame.rows, q.code = r.code := by
  intro q hq
  unfold dayBuys generatePositions at hq
  split at hq
  · cases hq
  · obtain ⟨a, ha, hcode⟩ := mem_buildPositions_code _ _ _ _ _ q hq
    have ha2 := List.mem_of_mem_filter ha
    have hrowpool : a.row ∈ (getPoolAndBudget ctx sampler (dayAccountAfterSells ctx st frame)
        frame.rows (dayBuySignals ctx st frame)
        (dayAccountAfterSells ctx st frame).cashAmount).1 := by
      have hpres := redistribute_preserves
        (fun r _ => r ∈ (getPoolAndBudget ctx sampler (dayAccountAfterSells ctx st frame)
          frame.rows (dayBuySignals ctx st frame)
          (dayAccountAfterSells ctx st frame).cashAmount).1) _ _ ?_ a ha2
      · exact hpres
      · intro c hc
        have hc2 := mem_sortByPriceDesc.mp hc
        obtain ⟨r, hrp, hrc⟩ := List.mem_map.mp hc2
        rw [← hrc]
        exact hrp
    have hsub : ∀ r ∈ dayBuySignals ctx st frame, r ∈ frame.rows := by
      intro r hr
      exact List.mem_of_mem_filter hr
    exact ⟨a.row, getPoolAndBudget_pool_sub _ _ _ _ _ _ hsub a.row hrowpool, hcode⟩

/-- **C6**: a held position whose symbol has no row in the day's tradable
frame is left untouched by the whole day step — the mark-to-market lookup
skips it, exit resolution skips it, the batch sell does not remove it and
the buys (all drawn from the day's frame) cannot replace it; the day
completes without error (every step is a total function). -/
theorem claim_C6_absent_symbol_untouched :
    ∀ (ctx : Context) (sampler : List Row → ℕ → List ℕ) (idGen : ℕ → String)
      (st : SimState) (frame : DayFrame) (p : Position),
      p ∈ st.account.holdings → findRow frame.rows p.code = none →
      p ∈ (dayStep ctx sampler idGen st frame).account.holdings := by
  intro ctx sampler idGen st frame p hp hmiss
  have hnorow : ∀ r ∈ frame.rows, r.code ≠ p.code := by
    intro r hr hc
    have hnf := List.find?_eq_none.mp hmiss r hr
    simp [hc] at hnf
  have h1 : p ∈ (dayTickedAccount st frame).holdings := by
    apply mem_tick_of_missing _ _ _ hp
    show (findRow frame.rows p.code).map Row.closePrice = none
    rw [hmiss]
    rfl
  have h2 : p ∈ (dayAccountAfterSells ctx st frame).holdings := by
    unfold dayAccountAfterSells
    split
    · exact h1
    · rw [(sell_fields _ _).2.2]
      apply mem_holdingsSell_preserved _ _ _ h1
      intro q hq hqp
      obtain ⟨e, he, heq⟩ := List.mem_map.mp hq
      have hpres := resolveExits_row_present ctx (dayCloseSignals ctx st frame) frame.rows
        (dayTickedAccount st frame).holdings e he
      apply hpres
      rw [show e.1.code = p.code from by rw [← heq] at hqp; exact hqp]
      exact hmiss
  rw [dayStep_account]
  split
  · exact h2
  · rw [(buy_fields _ _).2.2]
    apply mem_buyAll_preserved _ _ _ h2
    intro q hq hqp
    obtain ⟨r, hr, hqr⟩ := dayBuys_code_mem_rows ctx sampler idGen st frame q hq
    exact hnorow r hr (by rw [← hqr, hqp])

/-- **C6** witness: a held position for symbol 000002 on a day whose frame
contains only symbol 000001 survives the day step unchanged. -/
theorem claim_C6_witness :
    (Position.mk "d0" "000002" "B" 10 100 10 "p") ∈
      (SimState.mk (Account.mk 0 0 0 [Position.mk "d0" "000002" "B" 10 100 10 "p"])
        (TradeBook.mk [] []) 0).account.holdings
    ∧ findRow [Row.mk "000001" "A" 11.2 11 11.5 9.8 true false] "000002" = none
    ∧ (Position.mk "d0" "000002" "B" 10 100 10 "p") ∈
      (dayStep (Context.mk 5 10 10 1 100 true) (fun _ _ => []) (fun _ => "x")
        (SimState.mk (Account.mk 0 0 0 [Position.mk "d0" "000002" "B" 10 100 10 "p"])
          (TradeBook.mk [] []) 0)
        (DayFrame.mk "d1" [Row.mk "000001" "A" 11.2 11 11.5 9.8 true false])).account.holdings := by
  have hmem : (Position.mk "d0" "000002" "B" 10 100 10 "p") ∈
      (SimState.mk (Account.mk 0 0 0 [Position.mk "d0" "000002" "B" 10 100 10 "p"])
        (TradeBook.mk [] []) 0).account.holdings := by simp
  have hnone : findRow [Row.mk "000001" "A" 11.2 11 11.5 9.8 true false] "000002" = none := by
    simp [findRow, List.find?]
  exact ⟨hmem, hnone,
    claim_C6_absent_symbol_untouched (Context.mk 5 10 10 1 100 true) (fun _ _ => [])
      (fun _ => "x")
      (SimState.mk (Account.mk 0 0 0 [Position.mk "d0" "000002" "B" 10 100 10 "p"])
        (TradeBook.mk [] []) 0)
      (DayFrame.mk "d1" [Row.mk "000001" "A" 11.2 11 11.5 9.8 true false])
      (Position.mk "d0" "000002" "B" 10 100 10 "p") hmem hnone⟩

/-! ### C9: determinism of the simulator

Position ids come from `uuid.uuid4()` and the pool downsampling from an
unseeded `bars_df.sample`, so two runs differ in those draws.  Erasing the
generated ids lets us compare runs. -/

/-- Forget a position's generated id. -/
def erasePositionId (p : Position) : Position := { p with id := "" }

/-- Forget a trade-log entry's position id. -/
def eraseLogId (l : TradeLog) : TradeLog := { l with posId := "" }

/-- Forget the generated ids in an account's holdings. -/
def eraseAccountIds (a : Account) : Account :=
  { a with holdings := a.holdings.map erasePositionId }

/-- Forget the generated ids in a trade book (capital logs carry none). -/
def eraseBookIds (b : TradeBook) : TradeBook :=
  { b with tradeLogs := b.tradeLogs.map eraseLogId }

theorem holdingsCodes_erase (h : List Position) :
    holdingsCodes (h.map erasePositionId) = holdingsCodes h := by
  unfold holdingsCodes
  rw [List.map_map]
  rfl

theorem holdingsWorth_erase (h : List Position) :
    holdingsWorth (h.map erasePositionId) = holdingsWorth h := by
  unfold holdingsWorth
  rw [List.map_map]
  rfl

theorem tick_erase (a : Account) (f : String → Option ℚ) :
    eraseAccountIds (a.tick f) = (eraseAccountIds a).tick f := by
  unfold Account.tick
  have hEmpty : (eraseAccountIds a).holdings.isEmpty = a.holdings.isEmpty := by
    show (a.holdings.map erasePositionId).isEmpty = a.holdings.isEmpty
    cases a.holdings <;> rfl
  rw [hEmpty]
  split
  · rfl
  · show eraseAccountIds { a with holdings := holdingsTick a.holdings f }
      = { eraseAccountIds a with holdings := holdingsTick (eraseAccountIds a).holdings f }
    unfold eraseAccountIds holdingsTick
    congr 1
    rw [List.map_map, List.map_map]
    apply List.map_congr_left
    intro p _
    show erasePositionId (match f p.code with
        | some pr => p.updatePrice pr
        | none => p)
      = (match f p.code with
        | some pr => (erasePositionId p).updatePrice pr
        | none => erasePositionId p)
    cases f p.code <;> rfl

theorem getCloseSignals_erase (ctx : Context) (a : Account) (rows : List Row) :
    getCloseSignals ctx (eraseAccountIds a) rows = getCloseSignals ctx a rows := by
  unfold getCloseSignals
  have hEmpty : (eraseAccountIds a).holdings.isEmpty = a.holdings.isEmpty := by
    show (a.holdings.map erasePositionId).isEmpty = a.holdings.isEmpty
    cases a.holdings <;> rfl
  rw [hEmpty]
  have hcodes : holdingsCodes (eraseAccountIds a).holdings = holdingsCodes a.holdings :=
    holdingsCodes_erase a.holdings
  rw [hcodes]

theorem shouldTakeProfit_erase (tp : ℚ) (bar : Row) (p : Position) :
    shouldTakeProfit tp bar (erasePositionId p) = shouldTakeProfit tp bar p := rfl

theorem shouldStopLoss_erase (sl : ℚ) (bar : Row) (p : Position) :
    shouldStopLoss sl bar (erasePositionId p) = shouldStopLoss sl bar p := rfl

theorem resolveExits_erase (ctx : Context) (cs : List String) (rows : List Row)
    (h : List Position) :
    resolveExits ctx cs rows (h.map erasePositionId)
      = (resolveExits ctx cs rows h).map (fun e => (erasePositionId e.1, e.2)) := by
  unfold resolveExits
  rw [List.filterMap_map, List.map_filterMap]
  apply List.filterMap_congr
  intro p _
  show (match findRow rows (erasePositionId p).code with
      | none => none
      | some bar => _)
    = Option.map _ (match findRow rows p.code with
      | none => none
      | some bar => _)
  have hcode : (erasePositionId p).code = p.code := rfl
  rw [hcode]
  cases findRow rows p.code with
  | none => rfl
  | some bar =>
      dsimp only
      rw [shouldTakeProfit_erase]
      cases truthy (shouldTakeProfit ctx.takeProfit bar p) with
      | some price => rfl
      | none =>
          dsimp only
          rw [shouldStopLoss_erase]
          cases truthy (shouldStopLoss ctx.stopLoss bar p) with
          | some price => rfl
          | none =>
              dsimp only
              split <;> rfl

theorem removeByCode_erase (h : List Position) (c : String) :
    removeByCode (h.map erasePositionId) c = (removeByCode h c).map erasePositionId := by
  unfold removeByCode
  rw [List.filter_map]
  rfl

theorem holdingsSell_erase (h ps : List Position) :
    holdingsSell (h.map erasePositionId) (ps.map erasePositionId)
      = (holdingsSell h ps).map erasePositionId := by
  induction ps generalizing h with
  | nil => rfl
  | cons p t ih =>
      show holdingsSell (removeByCode (h.map erasePositionId) (erasePositionId p).code)
          (t.map erasePositionId) = _
      rw [show (erasePositionId p).code = p.code from rfl, removeByCode_erase, ih]
      rfl

theorem sellProceedsTotal_erase (ps : List Position) :
    sellProceedsTotal (ps.map erasePositionId) = sellProceedsTotal ps := by
  unfold sellProceedsTotal
  rw [List.map_map]
  rfl

theorem sell_erase (a : Account) (ps : List Position) :
    eraseAccountIds (a.sell ps) = (eraseAccountIds a).sell (ps.map erasePositionId) := by
  rw [sell_def, sell_def, sellProceedsTotal_erase,
    show (eraseAccountIds a).holdings = a.holdings.map erasePositionId from rfl,
    holdingsSell_erase]
  by_cases h0 : sellProceedsTotal ps = 0
  · rw [if_pos h0, if_pos h0]
    exact rfl
  · rw [if_neg h0, if_neg h0]
    exact rfl

theorem insertPosition_erase (h : List Position) (p : Position) :
    insertPosition (h.map erasePositionId) (erasePositionId p)
      = (insertPosition h p).map erasePositionId := by
  unfold insertPosition
  rw [holdingsCodes_erase, show (erasePositionId p).code = p.code from rfl]
  split
  · rw [List.map_map, List.map_map]
    apply List.map_congr_left
    intro q _
    show (if (erasePositionId q).code = p.code then erasePositionId p else erasePositionId q)
      = erasePositionId (if q.code = p.code then p else q)
    rw [show (erasePositionId q).code = q.code from rfl]
    split <;> rfl
  · rw [List.map_append]
    rfl

theorem holdingsBuy_erase (h ps : List Position) :
    holdingsBuy (h.map erasePositionId) (ps.map erasePositionId)
      = (holdingsBuy h ps).map erasePositionId := by
  induction ps generalizing h with
  | nil => rfl
  | cons p t ih =>
      show holdingsBuy (insertPosition (h.map erasePositionId) (erasePositionId p))
          (t.map erasePositionId) = _
      rw [insertPosition_erase, ih]
      rfl

theorem buyCostTotal_erase (ps : List Position) :
    buyCostTotal (ps.map erasePositionId) = buyCostTotal ps := by
  unfold buyCostTotal
  rw [List.map_map]
  rfl

theorem buy_erase (a : Account) (ps : List Position) :
    eraseAccountIds (a.buy ps) = (eraseAccountIds a).buy (ps.map erasePositionId) := by
  rw [buy_def, buy_def, buyCostTotal_erase,
    show (eraseAccountIds a).holdings = a.holdings.map erasePositionId from rfl,
    holdingsBuy_erase]
  by_cases h0 : buyCostTotal ps = 0
  · rw [if_pos h0, if_pos h0]
    exact rfl
  · rw [if_neg h0, if_neg h0]
    exact rfl

theorem getBuySignals_erase (a : Account) (rows : List Row) :
    getBuySignals (eraseAccountIds a) rows = getBuySignals a rows := by
  unfold getBuySignals
  rw [show (eraseAccountIds a).holdings = a.holdings.map erasePositionId from rfl,
    holdingsCodes_erase]

theorem getTotalAssetValue_erase (a : Account) :
    (eraseAccountIds a).getTotalAssetValue = a.getTotalAssetValue := by
  unfold Account.getTotalAssetValue
  rw [show (eraseAccountIds a).holdings = a.holdings.map erasePositionId from rfl,
    holdingsWorth_erase]
  rfl

theorem buildPositions_erase (unit : ℚ) (g : ℕ → String) (ts : String)
    (l : List Alloc) : ∀ k : ℕ,
    (buildPositions unit g ts k l).map erasePositionId
      = l.map (fun a => Position.mk ts a.row.code a.row.company a.row.closePrice
          (a.lots * unit) a.row.closePrice "") := by
  induction l with
  | nil => intro k; rfl
  | cons a t ih =>
      intro k
      show erasePositionId (mkPosition ts a.row.code a.row.company a.row.closePrice
          (a.lots * unit) (g k)) :: (buildPositions unit g ts (k + 1) t).map erasePositionId
        = _
      rw [ih (k + 1)]
      rfl

theorem generatePositions_erase (unit : ℚ) (g1 g2 : ℕ → String) (k1 k2 : ℕ)
    (ts : String) (pool : List Row) (budget : ℚ) :
    (generatePositions unit g1 k1 ts pool budget).map erasePositionId
      = (generatePositions unit g2 k2 ts pool budget).map erasePositionId := by
  unfold generatePositions
  split
  · rfl
  · rw [buildPositions_erase, buildPositions_erase]

theorem dayStep_congr (ctx : Context) (s1 s2 : List Row → ℕ → List ℕ) (g1 g2 : ℕ → String)
    (st1 st2 : SimState) (frame : DayFrame)
    (hlen : frame.rows.length ≤ ctx.maxPositionOpens)
    (hacc : eraseAccountIds st1.account = eraseAccountIds st2.account)
    (hbook : eraseBookIds st1.book = eraseBookIds st2.book) :
    eraseAccountIds (dayStep ctx s1 g1 st1 frame).account
        = eraseAccountIds (dayStep ctx s2 g2 st2 frame).account
    ∧ eraseBookIds (dayStep ctx s1 g1 st1 frame).book
        = eraseBookIds (dayStep ctx s2 g2 st2 frame).book := by
  have h1 : eraseAccountIds (dayTickedAccount st1 frame)
      = eraseAccountIds (dayTickedAccount st2 frame) := by
    unfold dayTickedAccount
    rw [tick_erase, tick_erase, hacc]
  have hcs : dayCloseSignals ctx st1 frame = dayCloseSignals ctx st2 frame := by
    unfold dayCloseSignals
    rw [← getCloseSignals_erase ctx (dayTickedAccount st1 frame),
      ← getCloseSignals_erase ctx (dayTickedAccount st2 frame), h1]
  have hh1 : (dayTickedAccount st1 frame).holdings.map erasePositionId
      = (dayTickedAccount st2 frame).holdings.map erasePositionId := by
    have hcg := congrArg Account.holdings h1
    exact hcg
  have hex : (dayExits ctx st1 frame).map (fun e => (erasePositionId e.1, e.2))
      = (dayExits ctx st2 frame).map (fun e => (erasePositionId e.1, e.2)) := by
    unfold dayExits
    rw [← resolveExits_erase, ← resolveExits_erase, hcs, hh1]
  have hexlen : (dayExits ctx st1 frame).length = (dayExits ctx st2 frame).length := by
    have := congrArg List.length hex
    simpa using this
  have hexE : (dayExits ctx st1 frame).isEmpty = (dayExits ctx st2 frame).isEmpty := by
    rcases hde1 : dayExits ctx st1 frame with _ | ⟨x, xs⟩
      <;> rcases hde2 : dayExits ctx st2 frame with _ | ⟨y, ys⟩
      <;> rw [hde1, hde2] at hexlen <;> first | rfl | simp at hexlen
  have hsell : ((dayExits ctx st1 frame).map (fun e => e.1)).map erasePositionId
      = ((dayExits ctx st2 frame).map (fun e => e.1)).map erasePositionId := by
    have hcong := congrArg (List.map (fun e : Position × String => e.1)) hex
    rw [List.map_map, List.map_map] at hcong
    rw [List.map_map, List.map_map]
    exact hcong
  have h2 : eraseAccountIds (dayAccountAfterSells ctx st1 frame)
      = eraseAccountIds (dayAccountAfterSells ctx st2 frame) := by
    unfold dayAccountAfterSells
    rw [hexE]
    split
    · exact h1
    · rw [sell_erase, sell_erase, h1, hsell]
  have hbs : dayBuySignals ctx st1 frame = dayBuySignals ctx st2 frame := by
    unfold dayBuySignals
    rw [← getBuySignals_erase (dayAccountAfterSells ctx st1 frame),
      ← getBuySignals_erase (dayAccountAfterSells ctx st2 frame), h2]
  have hcash2 : (dayAccountAfterSells ctx st1 frame).cashAmount
      = (dayAccountAfterSells ctx st2 frame).cashAmount := by
    have hcg := congrArg Account.cashAmount h2
    exact hcg
  have htot2 : (dayAccountAfterSells ctx st1 frame).getTotalAssetValue
      = (dayAccountAfterSells ctx st2 frame).getTotalAssetValue := by
    rw [← getTotalAssetValue_erase (dayAccountAfterSells ctx st1 frame),
      ← getTotalAssetValue_erase (dayAccountAfterSells ctx st2 frame), h2]
  have hnos : ∀ st : SimState, ¬ (ctx.maxPositionOpens < (dayBuySignals ctx st frame).length) := by
    intro st
    have hle : (dayBuySignals ctx st frame).length ≤ frame.rows.length := by
      unfold dayBuySignals getBuySignals
      exact List.length_filter_le _ _
    omega
  have hpb : getPoolAndBudget ctx s1 (dayAccountAfterSells ctx st1 frame) frame.rows
        (dayBuySignals ctx st1 frame) (dayAccountAfterSells ctx st1 frame).cashAmount
      = getPoolAndBudget ctx s2 (dayAccountAfterSells ctx st2 frame) frame.rows
        (dayBuySignals ctx st2 frame) (dayAccountAfterSells ctx st2 frame).cashAmount := by
    unfold getPoolAndBudget samplePool
    rw [if_neg (hnos st1), if_neg (hnos st2), hbs]
    unfold cappedBudget
    rw [htot2, hcash2]
  have hbuys : (dayBuys ctx s1 g1 st1 frame).map erasePositionId
      = (dayBuys ctx s2 g2 st2 frame).map erasePositionId := by
    unfold dayBuys
    rw [hpb]
    exact generatePositions_erase _ g1 g2 _ _ _ _ _
  have h3 : eraseAccountIds (dayStep ctx s1 g1 st1 frame).account
      = eraseAccountIds (dayStep ctx s2 g2 st2 frame).account := by
    rw [dayStep_account, dayStep_account, hbs]
    split
    · exact h2
    · rw [buy_erase, buy_erase, h2, hbuys]
  refine ⟨h3, ?_⟩
  have hh3 : (dayStep ctx s1 g1 st1 frame).account.holdings.map erasePositionId
      = (dayStep ctx s2 g2 st2 frame).account.holdings.map erasePositionId := by
    have hcg := congrArg Account.holdings h3
    exact hcg
  have hw3 : holdingsWorth (dayStep ctx s1 g1 st1 frame).account.holdings
      = holdingsWorth (dayStep ctx s2 g2 st2 frame).account.holdings := by
    rw [← holdingsWorth_erase (dayStep ctx s1 g1 st1 frame).account.holdings,
      ← holdingsWorth_erase (dayStep ctx s2 g2 st2 frame).account.holdings, hh3]
  have hc3 : (dayStep ctx s1 g1 st1 frame).account.cashAmount
      = (dayStep ctx s2 g2 st2 frame).account.cashAmount := by
    have hcg := congrArg Account.cashAmount h3
    exact hcg
  have hslog : ((dayExits ctx st1 frame).map
        (fun e => mkSellLog frame.timestamp e.2 e.1)).map eraseLogId
      = ((dayExits ctx st2 frame).map
        (fun e => mkSellLog frame.timestamp e.2 e.1)).map eraseLogId := by
    have hcong := congrArg (List.map
      (fun e : Position × String => eraseLogId (mkSellLog frame.timestamp e.2 e.1))) hex
    rw [List.map_map, List.map_map] at hcong
    rw [List.map_map, List.map_map]
    exact hcong
  have hblog : ((dayBuys ctx s1 g1 st1 frame).map (mkBuyLog frame.timestamp)).map eraseLogId
      = ((dayBuys ctx s2 g2 st2 frame).map (mkBuyLog frame.timestamp)).map eraseLogId := by
    have hcong := congrArg (List.map
      (fun p : Position => eraseLogId (mkBuyLog frame.timestamp p))) hbuys
    rw [List.map_map, List.map_map] at hcong
    rw [List.map_map, List.map_map]
    exact hcong
  have htl : st1.book.tradeLogs.map eraseLogId = st2.book.tradeLogs.map eraseLogId := by
    have hcg := congrArg TradeBook.tradeLogs hbook
    exact hcg
  have hcl : st1.book.capitalLogs = st2.book.capitalLogs := by
    have hcg := congrArg TradeBook.capitalLogs hbook
    exact hcg
  show TradeBook.mk
      ((st1.book.tradeLogs
        ++ (dayExits ctx st1 frame).map (fun e => mkSellLog frame.timestamp e.2 e.1)
        ++ (if (dayBuySignals ctx st1 frame).isEmpty then []
          else (dayBuys ctx s1 g1 st1 frame).map (mkBuyLog frame.timestamp))).map eraseLogId)
      (st1.book.capitalLogs
        ++ (if !(dayBuySignals ctx st1 frame).isEmpty
              || !(dayCloseSignals ctx st1 frame).isEmpty then
          [CapitalLog.mk frame.timestamp
            (holdingsWorth (dayStep ctx s1 g1 st1 frame).account.holdings)
            (dayStep ctx s1 g1 st1 frame).account.cashAmount]
        else []))
    = TradeBook.mk
      ((st2.book.tradeLogs
        ++ (dayExits ctx st2 frame).map (fun e => mkSellLog frame.timestamp e.2 e.1)
        ++ (if (dayBuySignals ctx st2 frame).isEmpty then []
          else (dayBuys ctx s2 g2 st2 frame).map (mkBuyLog frame.timestamp))).map eraseLogId)
      (st2.book.capitalLogs
        ++ (if !(dayBuySignals ctx st2 frame).isEmpty
              || !(dayCloseSignals ctx st2 frame).isEmpty then
          [CapitalLog.mk frame.timestamp
            (holdingsWorth (dayStep ctx s2 g2 st2 frame).account.holdings)
            (dayStep ctx s2 g2 st2 frame).account.cashAmount]
        else []))
  rw [List.map_append, List.map_append, List.map_append, List.map_append,
    htl, hcl, hslog, hbs, hcs, hw3, hc3]
  congr 2
  split <;> first | rfl | exact hblog

/-- **C9** (amended): provided no day's frame exceeds the max-opens limit
(so the random `bars_df.sample` downsampling never triggers), two runs of
the simulation over the same dataset, parameters and initial state are
identical up to the randomly generated position ids: erased of ids, the
final accounts and trade logs coincide, and the capital logs are equal
outright. -/
theorem claim_C9_determinism_mod_ids :
    ∀ (ctx : Context) (s1 s2 : List Row → ℕ → List ℕ) (g1 g2 : ℕ → String)
      (st1 st2 : SimState) (days : List DayFrame),
      (∀ f ∈ days, f.rows.length ≤ ctx.maxPositionOpens) →
      eraseAccountIds st1.account = eraseAccountIds st2.account →
      eraseBookIds st1.book = eraseBookIds st2.book →
      eraseAccountIds (trade ctx s1 g1 st1 days).account
          = eraseAccountIds (trade ctx s2 g2 st2 days).account
      ∧ eraseBookIds (trade ctx s1 g1 st1 days).book
          = eraseBookIds (trade ctx s2 g2 st2 days).book
      ∧ (trade ctx s1 g1 st1 days).book.capitalLogs
          = (trade ctx s2 g2 st2 days).book.capitalLogs := by
  intro ctx s1 s2 g1 g2 st1 st2 days
  induction days generalizing st1 st2 with
  | nil =>
      intro _ hacc hbook
      refine ⟨hacc, hbook, ?_⟩
      have hcg := congrArg TradeBook.capitalLogs hbook
      exact hcg
  | cons f ds ih =>
      intro hlen hacc hbook
      have hstep := dayStep_congr ctx s1 s2 g1 g2 st1 st2 f (hlen f (by simp)) hacc hbook
      exact ih (dayStep ctx s1 g1 st1 f) (dayStep ctx s2 g2 st2 f)
        (fun x hx => hlen x (by simp [hx])) hstep.1 hstep.2

/-- **C9** counterexample to the claim as stated: two runs of the same
one-day simulation (one buy signal, 10 000 cash) whose position-id draws
differ (`uuid.uuid4` is fresh per run) produce different trade logs — the
opened position's id is recorded in the log. -/
theorem claim_C9_counterexample :
    (trade (Context.mk 5 10 10 1 100 false) (fun _ _ => []) (fun _ => "a")
        (SimState.mk (Account.mk 0 0 10000 []) (TradeBook.mk [] []) 0)
        [DayFrame.mk "d1" [Row.mk "000001" "A" 10 10 10 10 true false]]).book.tradeLogs
      ≠ (trade (Context.mk 5 10 10 1 100 false) (fun _ _ => []) (fun _ => "b")
        (SimState.mk (Account.mk 0 0 10000 []) (TradeBook.mk [] []) 0)
        [DayFrame.mk "d1" [Row.mk "000001" "A" 10 10 10 10 true false]]).book.tradeLogs := by
  have htick : dayTickedAccount
      (SimState.mk (Account.mk 0 0 10000 []) (TradeBook.mk [] []) 0)
      (DayFrame.mk "d1" [Row.mk "000001" "A" 10 10 10 10 true false])
      = Account.mk 0 0 10000 [] := by
    norm_num [dayTickedAccount, Account.tick]
  have hclose : dayCloseSignals (Context.mk 5 10 10 1 100 false)
      (SimState.mk (Account.mk 0 0 10000 []) (TradeBook.mk [] []) 0)
      (DayFrame.mk "d1" [Row.mk "000001" "A" 10 10 10 10 true false]) = [] := by
    norm_num [dayCloseSignals, getCloseSignals]
  have hexit : dayExits (Context.mk 5 10 10 1 100 false)
      (SimState.mk (Account.mk 0 0 10000 []) (TradeBook.mk [] []) 0)
      (DayFrame.mk "d1" [Row.mk "000001" "A" 10 10 10 10 true false]) = [] := by
    rw [dayExits, hclose, htick]
    norm_num [resolveExits]
  have ha2 : dayAccountAfterSells (Context.mk 5 10 10 1 100 false)
      (SimState.mk (Account.mk 0 0 10000 []) (TradeBook.mk [] []) 0)
      (DayFrame.mk "d1" [Row.mk "000001" "A" 10 10 10 10 true false])
      = Account.mk 0 0 10000 [] := by
    rw [dayAccountAfterSells, hexit, htick]
    norm_num
  have hbs : dayBuySignals (Context.mk 5 10 10 1 100 false)
      (SimState.mk (Account.mk 0 0 10000 []) (TradeBook.mk [] []) 0)
      (DayFrame.mk "d1" [Row.mk "000001" "A" 10 10 10 10 true false])
      = [Row.mk "000001" "A" 10 10 10 10 true false] := by
    rw [dayBuySignals, ha2]
    norm_num [getBuySignals, List.filter, holdingsCodes]
  have hpool : ∀ s : List Row → ℕ → List ℕ,
      getPoolAndBudget (Context.mk 5 10 10 1 100 false) s (Account.mk 0 0 10000 [])
        [Row.mk "000001" "A" 10 10 10 10 true false]
        [Row.mk "000001" "A" 10 10 10 10 true false] 10000
      = ([Row.mk "000001" "A" 10 10 10 10 true false], 10000) := by
    intro s
    norm_num [getPoolAndBudget, samplePool, cappedBudget, ratFloorDiv,
      Account.getTotalAssetValue, holdingsWorth]
  have hbuys : ∀ (s : List Row → ℕ → List ℕ) (g : ℕ → String),
      dayBuys (Context.mk 5 10 10 1 100 false) s g
        (SimState.mk (Account.mk 0 0 10000 []) (TradeBook.mk [] []) 0)
        (DayFrame.mk "d1" [Row.mk "000001" "A" 10 10 10 10 true false])
      = [Position.mk "d1" "000001" "A" 10 1000 10 (g 0)] := by
    intro s g
    rw [dayBuys, hbs, ha2]
    rw [show (Account.mk 0 0 10000 [] : Account).cashAmount = 10000 from rfl, hpool s]
    norm_num [generatePositions, initialAllocs, initialRemaining, ratFloorDiv,
      sortByPriceDesc, insertByPriceDesc, redistribute, buildPositions, mkPosition,
      List.filter]
  have hlog : ∀ (g : ℕ → String),
      (trade (Context.mk 5 10 10 1 100 false) (fun _ _ => []) g
        (SimState.mk (Account.mk 0 0 10000 []) (TradeBook.mk [] []) 0)
        [DayFrame.mk "d1" [Row.mk "000001" "A" 10 10 10 10 true false]]).book.tradeLogs
      = [mkBuyLog "d1" (Position.mk "d1" "000001" "A" 10 1000 10 (g 0))] := by
    intro g
    show (dayStep (Context.mk 5 10 10 1 100 false) (fun _ _ => []) g
        (SimState.mk (Account.mk 0 0 10000 []) (TradeBook.mk [] []) 0)
        (DayFrame.mk "d1" [Row.mk "000001" "A" 10 10 10 10 true false])).book.tradeLogs = _
    rw [dayStep_tradeLogs, hexit, hbs, hbuys]
    rfl
  rw [hlog (fun _ => "a"), hlog (fun _ => "b")]
  simp [mkBuyLog]

/-- **C9** witness: the amended theorem applied to the same concrete
one-day dataset with two different id generators and samplers — the
no-downsampling hypothesis (1 row ≤ 10 max opens) and the equal erased
initial states are discharged concretely. -/
theorem claim_C9_witness :
    (∀ f ∈ [DayFrame.mk "d1" [Row.mk "000001" "A" 10 10 10 10 true false]],
      f.rows.length ≤ (Context.mk 5 10 10 1 100 false).maxPositionOpens)
    ∧ (eraseBookIds (trade (Context.mk 5 10 10 1 100 false) (fun _ _ => []) (fun _ => "a")
          (SimState.mk (Account.mk 0 0 10000 []) (TradeBook.mk [] []) 0)
          [DayFrame.mk "d1" [Row.mk "000001" "A" 10 10 10 10 true false]]).book
        = eraseBookIds (trade (Context.mk 5 10 10 1 100 false) (fun _ _ => [0]) (fun _ => "b")
          (SimState.mk (Account.mk 0 0 10000 []) (TradeBook.mk [] []) 0)
          [DayFrame.mk "d1" [Row.mk "000001" "A" 10 10 10 10 true false]]).book)
    ∧ (trade (Context.mk 5 10 10 1 100 false) (fun _ _ => []) (fun _ => "a")
          (SimState.mk (Account.mk 0 0 10000 []) (TradeBook.mk [] []) 0)
          [DayFrame.mk "d1" [Row.mk "000001" "A" 10 10 10 10 true false]]).book.capitalLogs
        = (trade (Context.mk 5 10 10 1 100 false) (fun _ _ => [0]) (fun _ => "b")
          (SimState.mk (Account.mk 0 0 10000 []) (TradeBook.mk [] []) 0)
          [DayFrame.mk "d1" [Row.mk "000001" "A" 10 10 10 10 true false]]).book.capitalLogs := by
  have hlen : ∀ f ∈ [DayFrame.mk "d1" [Row.mk "000001" "A" 10 10 10 10 true false]],
      f.rows.length ≤ (Context.mk 5 10 10 1 100 false).maxPositionOpens := by
    intro f hf
    rw [List.mem_singleton.mp hf]
    norm_num
  have hmain := claim_C9_determinism_mod_ids (Context.mk 5 10 10 1 100 false)
    (fun _ _ => []) (fun _ _ => [0]) (fun _ => "a") (fun _ => "b")
    (SimState.mk (Account.mk 0 0 10000 []) (TradeBook.mk [] []) 0)
    (SimState.mk (Account.mk 0 0 10000 []) (TradeBook.mk [] []) 0)
    [DayFrame.mk "d1" [Row.mk "000001" "A" 10 10 10 10 true false]]
    hlen rfl rfl
  exact ⟨hlen, hmain.2.1, hmain.2.2⟩

end TradePy
